import Mathlib

/-
Verification development for the liquid-chat generation orchestration core.

The controller under study is the React hook in src/renderer/hooks/useChat.ts
(the version with per-conversation streaming accumulators and the deferred
session-reset protocol), together with:
  * the main-process IPC layer in src/main/main.ts (the llm:generate handler
    maps an engine-level abort to a result with aborted = true),
  * the main-process store in src/main/store.ts, and
  * the two LLMEngine implementations (local node-llama-cpp engine and the
    remote completions-API engine).

Embedding choices:
  * Opaque identifiers (crypto.randomUUID / uuidv4) are modelled by a
    fresh-id counter nextId : Nat; each created conversation or message
    consumes fresh numbers in creation order.
  * Timestamps (Date.now()) are irrelevant to every claim and are modelled
    as the constant 0.
  * The controller is modelled as a state machine.  One Action corresponds to
    one event-handler execution of the single-threaded event loop:
      - Action.send        = one sendMessage(content) call,
      - Action.drain       = the part of processQueue up to and including the
                             call into window.electron.llm.generate,
      - Action.settle      = the continuation of processQueue after the
                             generate promise settles (then/catch/finally),
      - Action.chunk       = one llm.onChunk callback delivery,
      - Action.select / Action.deleteConv / Action.rename / Action.stop /
        Action.createConv  = the corresponding hook operations,
      - Action.pendingReset = one run of the effect that performs the deferred
                             session reset after background generation.
  * Calls that cross the IPC boundary and matter to the claims are recorded
    in a ghost log (ECall); ECall.generateCall additionally records the id of
    the queue item that triggered it, purely as instrumentation for ordering
    statements.
  * State the claims ignore (llmStatus, theming, model download) is omitted.
-/

namespace LiquidChat

inductive Role where
  | user
  | assistant
  | system
deriving DecidableEq, Repr

inductive MessageStatus where
  | queued
  | generating
  | complete
  | error
deriving DecidableEq, Repr

/-- Message from src/renderer/types/electron.d.ts; status is optional there
(absent means a message persisted by an older version). timestamp omitted
(modelled as constant, never read). -/
structure Message where
  id : Nat
  role : Role
  content : String
  status : Option MessageStatus
deriving DecidableEq, Repr

structure Conversation where
  id : Nat
  title : String
  messages : List Message
deriving DecidableEq, Repr

/-- QueueItem from useChat.ts. -/
structure QueueItem where
  id : Nat
  content : String
  conversationId : Nat
deriving DecidableEq, Repr

/-- Result shape of window.electron.llm.generate as produced by the
llm:generate handler in main.ts: success | aborted | error. -/
structure GenResp where
  success : Bool
  aborted : Bool
deriving DecidableEq, Repr

/-- Outcome of awaiting llm.generate in processQueue: the promise resolved
with a GenResp, or the await itself threw (the catch branch). -/
inductive GenOutcome where
  | ok (r : GenResp)
  | threw
deriving DecidableEq, Repr

/-- Ghost record of calls the controller makes across the IPC boundary. -/
inductive ECall where
  | resetSession
  | loadHistory (msgs : List Message)
  | generateCall (itemId : Nat) (content : String) (conversationId : Nat)
  | setGenerating (id : Option Nat)
  | stopCall
  | saveConv (id : Nat)
  | setCurrentId (id : Option Nat)
deriving DecidableEq, Repr

/-- The in-flight generation: the queue item being processed and the id of
the assistant message processQueue located for it (assistantMsg.id). -/
structure Inflight where
  item : QueueItem
  msgId : Nat
deriving DecidableEq, Repr

/-- The controller state: the useChat hook's state/refs, plus the engine's
generatingForConversationId (registered via llm.setGeneratingConversation),
plus the fresh-id counter and the ghost call log. -/
structure ChatState where
  conversations : List Conversation
  currentConversation : Option Conversation
  isGenerating : Bool
  queue : List QueueItem
  isProcessing : Bool
  backgroundGeneratingConvId : Option Nat
  pendingSessionReset : Option Nat
  streamingByConv : List (Nat × String)
  streamingContent : String
  engineGeneratingConvId : Option Nat
  inflight : Option Inflight
  nextId : Nat
  log : List ECall
deriving DecidableEq, Repr

/-! ### Small helpers: JS Map and Array.findIndex -/

/-- JS Map.get (as used on streamingContentByConvRef). -/
def mapGet (m : List (Nat × String)) (k : Nat) : Option String :=
  (m.find? (fun p => p.1 = k)).map (·.2)

/-- JS Map.set: replace the binding if present, else append. -/
def mapSet (m : List (Nat × String)) (k : Nat) (v : String) : List (Nat × String) :=
  if (m.find? (fun p => p.1 = k)).isSome then
    m.map (fun p => if p.1 = k then (k, v) else p)
  else
    m ++ [(k, v)]

/-- JS Map.delete. -/
def mapDelete (m : List (Nat × String)) (k : Nat) : List (Nat × String) :=
  m.filter (fun p => p.1 ≠ k)

/-- JS Array.prototype.findIndex, returning none instead of -1. -/
def jsFindIndex (p : Message → Bool) : List Message → Option Nat
  | [] => none
  | m :: ms => if p m then some 0 else (jsFindIndex p ms).map (· + 1)

/-- JS String.prototype.trim: drop whitespace from both ends (written over
the character list so that it evaluates by kernel reduction). -/
def jsTrim (s : String) : String :=
  String.mk (((s.toList.dropWhile Char.isWhitespace).reverse.dropWhile
    Char.isWhitespace).reverse)

/-- JS content.split(s p a c e): cut at every single space character. -/
def jsSplitSpaceAux : List Char → List Char → List String
  | [], acc => [String.mk acc.reverse]
  | c :: cs, acc =>
    if c = ' ' then String.mk acc.reverse :: jsSplitSpaceAux cs []
    else jsSplitSpaceAux cs (c :: acc)

def jsSplitSpace (s : String) : List String := jsSplitSpaceAux s.toList []

/-! ### Operations translated from useChat.ts -/

/-- generateTitle from useChat.ts. -/
def generateTitle (content : String) : String :=
  let words := String.intercalate " " ((jsSplitSpace content).take 6)
  if words.length > 40 then String.mk (words.toList.take 40) ++ "..." else words

/-- The per-message update inside updateMessageStatus: set the status (and,
when given, the content) of the message with the given id. -/
def updMsg (messageId : Nat) (status : MessageStatus) (content? : Option String)
    (m : Message) : Message :=
  if m.id = messageId then
    { m with status := some status, content := content?.getD m.content }
  else m

/-- The updateConv closure inside updateMessageStatus. -/
def updateConvStatus (conversationId messageId : Nat) (status : MessageStatus)
    (content? : Option String) (conv : Conversation) : Conversation :=
  if conv.id ≠ conversationId then conv
  else { conv with messages := conv.messages.map (updMsg messageId status content?) }

/-- updateMessageStatus from useChat.ts: applies updateConv to the
conversation list and to the currentConversation copy. -/
def updateMessageStatus (conversationId messageId : Nat) (status : MessageStatus)
    (content? : Option String) (s : ChatState) : ChatState :=
  { s with
    conversations :=
      s.conversations.map (updateConvStatus conversationId messageId status content?),
    currentConversation :=
      s.currentConversation.map (updateConvStatus conversationId messageId status content?) }

/-- The updateConversationMessages closure in the onChunk listener: rewrite
the last message's content when it is an assistant message mid-generation. -/
def updateConversationMessages (targetConvId : Nat) (newContent : String)
    (conv : Conversation) : Conversation :=
  if conv.id ≠ targetConvId then conv
  else
    match conv.messages.getLast? with
    | some lastMessage =>
      if lastMessage.role = Role.assistant ∧ lastMessage.status = some MessageStatus.generating then
        { conv with messages := conv.messages.dropLast ++ [{ lastMessage with content := newContent }] }
      else conv
    | none => conv

/-- The llm.onChunk listener from useChat.ts.  conversationId? is the
conversationId field of the chunk payload (main.ts sends the engine's
generatingForConversationId there); a missing id falls back to the
currently displayed conversation. -/
def onChunk (conversationId? : Option Nat) (chunk : String) (s : ChatState) : ChatState :=
  let targetConvId? :=
    match conversationId? with
    | some c => some c
    | none => s.currentConversation.map (fun c : Conversation => c.id)
  match targetConvId? with
  | none => s
  | some targetConvId =>
    let currentContent := (mapGet s.streamingByConv targetConvId).getD ""
    let newContent := currentContent ++ chunk
    { s with
      streamingByConv := mapSet s.streamingByConv targetConvId newContent,
      streamingContent :=
        if s.currentConversation.map (fun c : Conversation => c.id) = some targetConvId then newContent
        else s.streamingContent,
      conversations := s.conversations.map (updateConversationMessages targetConvId newContent),
      currentConversation :=
        if s.currentConversation.map (fun c : Conversation => c.id) = some targetConvId then
          s.currentConversation.map (updateConversationMessages targetConvId newContent)
        else s.currentConversation }

/-- sendMessage from useChat.ts. -/
def sendMessage (content : String) (s : ChatState) : ChatState :=
  if (jsTrim content).isEmpty then s
  else
    -- create new conversation if none exists (conversations.create in main.ts)
    let convAndState : Conversation × ChatState :=
      match s.currentConversation with
      | some c => (c, s)
      | none =>
        let c : Conversation := { id := s.nextId, title := "New Chat", messages := [] }
        (c, { s with
              conversations := c :: s.conversations,
              currentConversation := some c,
              nextId := s.nextId + 1,
              log := s.log ++ [ECall.setCurrentId (some c.id)] })
    let conversation := convAndState.1
    let s1 := convAndState.2
    let userMessage : Message :=
      { id := s1.nextId, role := Role.user, content := jsTrim content,
        status := some MessageStatus.complete }
    let assistantMessage : Message :=
      { id := s1.nextId + 1, role := Role.assistant, content := "",
        status := some MessageStatus.queued }
    let isFirstMessage := conversation.messages.length = 0
    let newTitle := if isFirstMessage then generateTitle content else conversation.title
    let updatedConversation : Conversation :=
      { conversation with
        title := newTitle,
        messages := conversation.messages ++ [userMessage, assistantMessage] }
    { s1 with
      currentConversation := some updatedConversation,
      conversations := s1.conversations.map
        (fun c => if c.id = updatedConversation.id then updatedConversation else c),
      nextId := s1.nextId + 2,
      queue := s1.queue ++
        [{ id := assistantMessage.id, content := jsTrim content,
           conversationId := updatedConversation.id }] }

/-- The lookup processQueue performs to locate the target assistant message:
findIndex of a user message with the item's content, then the entry at the
following position (JS: messages[userMsgIndex + 1]; a findIndex result of -1
makes that messages[0]). -/
def locateAssistant (conversation : Conversation) (item : QueueItem) : Option Message :=
  let userMsgIndex? :=
    jsFindIndex (fun m : Message => decide (m.role = Role.user ∧ m.content = item.content))
      conversation.messages
  let assistantIdx :=
    match userMsgIndex? with
    | some i => i + 1
    | none => 0
  conversation.messages[assistantIdx]?

/-- The first half of processQueue: guard, dequeue-or-skip, locate the target
assistant message, register the generating conversation with the engine, mark
the message generating, initialise the accumulator, and issue generate. -/
def processQueueStart (s : ChatState) : ChatState :=
  match s.queue, s.isProcessing with
  | [], _ => s
  | _ :: _, true => s
  | item :: rest, false =>
    match s.conversations.find? (fun c : Conversation => c.id = item.conversationId) with
    | none => { s with queue := rest }
    | some conversation =>
      match locateAssistant conversation item with
      | none => { s with queue := rest }
      | some assistantMsg =>
        if assistantMsg.role ≠ Role.assistant then { s with queue := rest }
        else
          let s1 := updateMessageStatus item.conversationId assistantMsg.id
            MessageStatus.generating none s
          { s1 with
            isProcessing := true,
            engineGeneratingConvId := some item.conversationId,
            isGenerating := true,
            streamingByConv := mapSet s1.streamingByConv item.conversationId "",
            streamingContent := "",
            inflight := some { item := item, msgId := assistantMsg.id },
            log := s1.log ++
              [ECall.setGenerating (some item.conversationId),
               ECall.generateCall item.id item.content item.conversationId] }

/-- The second half of processQueue: everything after the generate promise
settles (then/catch and the finally block), including the engine clearing its
generatingForConversationId in its own finally. -/
def settleGeneration (r : GenOutcome) (s : ChatState) : ChatState :=
  match s.inflight with
  | none => s
  | some inf =>
    let s1 :=
      match r with
      | GenOutcome.ok result =>
        let finalContent := (mapGet s.streamingByConv inf.item.conversationId).getD ""
        let finalStatus :=
          if result.success ∨ result.aborted then MessageStatus.complete
          else MessageStatus.error
        let s' := updateMessageStatus inf.item.conversationId inf.msgId
          finalStatus (some finalContent) s
        let s'' :=
          { s' with log := s'.log ++
              (match s'.conversations.find? (fun c : Conversation => c.id = inf.item.conversationId) with
               | some c => [ECall.saveConv c.id]
               | none => []) }
        { s'' with streamingByConv := mapDelete s''.streamingByConv inf.item.conversationId }
      | GenOutcome.threw =>
        let s' := updateMessageStatus inf.item.conversationId inf.msgId
          MessageStatus.error (some "Error generating response") s
        { s' with streamingByConv := mapDelete s'.streamingByConv inf.item.conversationId }
    { s1 with
      isGenerating := false,
      backgroundGeneratingConvId := none,
      queue := s1.queue.drop 1,
      isProcessing := false,
      inflight := none,
      engineGeneratingConvId := none }

/-- The non-deferred tail of selectConversation: set current, reset the
session and replay the settled (complete-or-legacy) history. -/
def selectImmediate (conversation : Conversation) (id : Nat) (s : ChatState) : ChatState :=
  let s1 :=
    { s with
      currentConversation := some conversation,
      log := s.log ++ [ECall.setCurrentId (some id), ECall.resetSession] }
  if conversation.messages.length > 0 then
    let completeMessages := conversation.messages.filter
      (fun m : Message => decide (m.status = some MessageStatus.complete ∨ m.status = none))
    if completeMessages.length > 0 then
      { s1 with log := s1.log ++ [ECall.loadHistory completeMessages] }
    else s1
  else s1

/-- selectConversation from useChat.ts, including the background-generation
defer branch. -/
def selectConversation (id : Nat) (s : ChatState) : ChatState :=
  match s.conversations.find? (fun c : Conversation => c.id = id) with
  | none => s
  | some conversation =>
    match s.currentConversation.map (fun c : Conversation => c.id) with
    | some previousConvId =>
      if previousConvId ≠ id ∧ s.isProcessing then
        { s with
          backgroundGeneratingConvId := some previousConvId,
          pendingSessionReset := some id,
          currentConversation := some conversation,
          log := s.log ++ [ECall.setCurrentId (some id)] }
      else selectImmediate conversation id s
    | none => selectImmediate conversation id s

/-- deleteConversation from useChat.ts (the store-side delete is modelled
separately; here only the renderer list is filtered, then the current
conversation is reassigned as in the source). -/
def deleteConversation (id : Nat) (s : ChatState) : ChatState :=
  let s1 := { s with conversations := s.conversations.filter (fun c : Conversation => c.id ≠ id) }
  if s.currentConversation.map (fun c : Conversation => c.id) = some id then
    match s.conversations.filter (fun c : Conversation => c.id ≠ id) with
    | c0 :: _ => selectConversation c0.id s1
    | [] =>
      { s1 with
        currentConversation := none,
        log := s1.log ++ [ECall.resetSession] }
  else s1

/-- renameConversation from useChat.ts. -/
def renameConversation (id : Nat) (newTitle : String) (s : ChatState) : ChatState :=
  match s.conversations.find? (fun c : Conversation => c.id = id) with
  | none => s
  | some conversation =>
    if (jsTrim newTitle).isEmpty then s
    else
      let updatedConversation := { conversation with title := jsTrim newTitle }
      { s with
        conversations := s.conversations.map
          (fun c => if c.id = id then updatedConversation else c),
        currentConversation :=
          if s.currentConversation.map (fun c : Conversation => c.id) = some id then some updatedConversation
          else s.currentConversation,
        log := s.log ++ [ECall.saveConv id] }

/-- stopGeneration from useChat.ts: only signals the engine. -/
def stopGeneration (s : ChatState) : ChatState :=
  { s with log := s.log ++ [ECall.stopCall] }

/-- createConversation from useChat.ts (conversations.create sets the store's
current id, then the session is reset). -/
def createConversation (s : ChatState) : ChatState :=
  let c : Conversation := { id := s.nextId, title := "New Chat", messages := [] }
  { s with
    conversations := c :: s.conversations,
    currentConversation := some c,
    nextId := s.nextId + 1,
    log := s.log ++ [ECall.setCurrentId (some c.id), ECall.resetSession] }

/-- The deferred-session-reset effect of useChat.ts: fires when no generation
is running, a reset is pending and no background generation is recorded. -/
def performPendingReset (s : ChatState) : ChatState :=
  match s.pendingSessionReset with
  | none => s
  | some pid =>
    if s.isGenerating ∨ s.backgroundGeneratingConvId ≠ none then s
    else
      let s1 := { s with log := s.log ++ [ECall.resetSession] }
      let s2 :=
        match s1.conversations.find? (fun c : Conversation => c.id = pid) with
        | some conv =>
          if conv.messages.length > 0 then
            let completeMessages := conv.messages.filter
              (fun m : Message => decide (m.status = some MessageStatus.complete ∨ m.status = none))
            if completeMessages.length > 0 then
              { s1 with log := s1.log ++ [ECall.loadHistory completeMessages] }
            else s1
          else s1
        | none => s1
      { s2 with pendingSessionReset := none }

/-! ### The event loop -/

inductive Action where
  | send (content : String)
  | drain
  | chunk (conversationId : Option Nat) (text : String)
  | settle (r : GenOutcome)
  | select (id : Nat)
  | deleteConv (id : Nat)
  | rename (id : Nat) (newTitle : String)
  | stop
  | createConv
  | pendingReset
deriving DecidableEq, Repr

def step (a : Action) (s : ChatState) : ChatState :=
  match a with
  | Action.send content => sendMessage content s
  | Action.drain => processQueueStart s
  | Action.chunk cid text => onChunk cid text s
  | Action.settle r => settleGeneration r s
  | Action.select id => selectConversation id s
  | Action.deleteConv id => deleteConversation id s
  | Action.rename id t => renameConversation id t s
  | Action.stop => stopGeneration s
  | Action.createConv => createConversation s
  | Action.pendingReset => performPendingReset s

def run (as : List Action) (s : ChatState) : ChatState :=
  as.foldl (fun t a => step a t) s

def initState : ChatState :=
  { conversations := []
    currentConversation := none
    isGenerating := false
    queue := []
    isProcessing := false
    backgroundGeneratingConvId := none
    pendingSessionReset := none
    streamingByConv := []
    streamingContent := ""
    engineGeneratingConvId := none
    inflight := none
    nextId := 0
    log := [] }

def Reachable (s : ChatState) : Prop :=
  ∃ as, run as initState = s

/-! ### Observation helpers used in theorem statements -/

/-- The conversation with a given id, as the controller would find it. -/
def getConv (s : ChatState) (conversationId : Nat) : Option Conversation :=
  s.conversations.find? (fun c : Conversation => c.id = conversationId)

/-- The message with a given id inside the conversation with a given id. -/
def getMsg (s : ChatState) (conversationId messageId : Nat) : Option Message :=
  (getConv s conversationId).bind (fun c : Conversation => c.messages.find? (fun m : Message => m.id = messageId))

/-- The item ids of the generate calls recorded in the log, in call order. -/
def genIds (log : List ECall) : List Nat :=
  log.filterMap (fun e =>
    match e with
    | ECall.generateCall itemId _ _ => some itemId
    | _ => none)

/-- Concatenation of the chunk texts a list of actions delivers for a given
conversation id, in delivery order. -/
def chunkTextsFor (conversationId : Nat) : List Action → String
  | [] => ""
  | Action.chunk (some d) t :: rest =>
    if d = conversationId then t ++ chunkTextsFor conversationId rest
    else chunkTextsFor conversationId rest
  | _ :: rest => chunkTextsFor conversationId rest

/-- The reset/replay calls the pending-reset effect makes for a conversation
lookup result. -/
def replayCalls (conv? : Option Conversation) : List ECall :=
  match conv? with
  | some conv =>
    if conv.messages.length > 0 then
      let completeMessages := conv.messages.filter
        (fun m : Message => decide (m.status = some MessageStatus.complete ∨ m.status = none))
      if completeMessages.length > 0 then
        [ECall.resetSession, ECall.loadHistory completeMessages]
      else [ECall.resetSession]
    else [ECall.resetSession]
  | none => [ECall.resetSession]

/-- No two user messages of any one conversation carry the same content (the
side condition under which the positional pairing in processQueue is exact;
spec section 9 flags it as fragile without this). -/
def DistinctUserContents (s : ChatState) : Prop :=
  ∀ c ∈ s.conversations,
    ((c.messages.filter (fun m : Message => decide (m.role = Role.user))).map
      (fun m : Message => m.content)).Nodup

/-- Forward movement along queued -> generating -> (complete | error); a
status may also stay put.  Anything else is a backward or sideways move. -/
def StatusForward (before after : Option MessageStatus) : Prop :=
  before = after ∨
  (before = some MessageStatus.queued ∧
    (after = some MessageStatus.generating ∨ after = some MessageStatus.complete ∨
     after = some MessageStatus.error)) ∨
  (before = some MessageStatus.generating ∧
    (after = some MessageStatus.complete ∨ after = some MessageStatus.error))

/-- The (user, assistant) message pair a queue item refers to, at position i
of a conversation. -/
def pairAt (c : Conversation) (item : QueueItem) (i : Nat) : Prop :=
  ∃ u a : Message, c.messages[i]? = some u ∧ c.messages[i + 1]? = some a ∧
    u.role = Role.user ∧ u.content = item.content ∧
    a.role = Role.assistant ∧ a.id = item.id


/-! ### The reachable-state invariant -/

def convMsgIds (c : Conversation) : List Nat := c.messages.map (fun m : Message => m.id)

/-- The currentConversation copy always mirrors a member of the list. -/
def CopyOk (s : ChatState) : Prop :=
  ∀ c, s.currentConversation = some c → c ∈ s.conversations

/-- The inductive invariant of the controller, independent of the
currentConversation copy. -/
structure InvCore (s : ChatState) : Prop where
  convIdLt : ∀ c ∈ s.conversations, c.id < s.nextId
  msgIdLt : ∀ c ∈ s.conversations, ∀ m ∈ c.messages, m.id < s.nextId
  itemLt : ∀ it ∈ s.queue, it.id < s.nextId ∧ it.conversationId < s.nextId
  convNodup : s.conversations.Pairwise (fun a b => a.id ≠ b.id)
  msgNodupIn : ∀ c ∈ s.conversations, (convMsgIds c).Nodup
  msgDisjoint : s.conversations.Pairwise (fun a b => ∀ x ∈ convMsgIds a, x ∉ convMsgIds b)
  genFlag : s.isGenerating = s.inflight.isSome
  procFlag : s.isProcessing = s.inflight.isSome
  engineEq : s.engineGeneratingConvId = s.inflight.map (fun inf => inf.item.conversationId)
  genOnly : ∀ c ∈ s.conversations, ∀ m ∈ c.messages,
    m.status = some MessageStatus.generating →
    ∃ inf, s.inflight = some inf ∧ m.id = inf.msgId ∧ c.id = inf.item.conversationId
  inflightMsg : ∀ inf, s.inflight = some inf →
    inf.msgId < s.nextId ∧
    (∀ it ∈ s.queue.drop 1, it.id ≠ inf.msgId) ∧
    (∀ c ∈ s.conversations, ∀ m ∈ c.messages, m.id = inf.msgId →
      c.id = inf.item.conversationId ∧ m.role = Role.assistant ∧
      m.status = some MessageStatus.generating)
  inflightHead : ∀ inf, s.inflight = some inf → s.queue.head? = some inf.item
  queueOwner : ∀ it ∈ s.queue, ∀ c ∈ s.conversations, ∀ m ∈ c.messages, m.id = it.id →
    c.id = it.conversationId ∧ m.role = Role.assistant
  queuePairs : ∀ it ∈ s.queue, ∀ c ∈ s.conversations, c.id = it.conversationId →
    ∃ i, pairAt c it i
  queuedSt : ∀ it ∈ s.queue, (∀ inf, s.inflight = some inf → it.id ≠ inf.item.id) →
    ∀ c ∈ s.conversations, ∀ m ∈ c.messages, m.id = it.id →
    m.status = some MessageStatus.queued
  queueOrd : ∀ j k : Nat, ∀ itj itk : QueueItem, j < k →
    s.queue[j]? = some itj → s.queue[k]? = some itk →
    itj.conversationId = itk.conversationId →
    ∀ c ∈ s.conversations, c.id = itj.conversationId →
    ∀ ij ik : Nat, pairAt c itj ij → pairAt c itk ik → ij < ik
  qSorted : s.queue.Pairwise (fun a b => a.id < b.id)
  genBound : ∀ g ∈ genIds s.log, g < s.nextId
  genSorted : (genIds s.log).Pairwise (fun a b => a < b)
  genLe : ∀ inf, s.inflight = some inf → ∀ g ∈ genIds s.log, g ≤ inf.item.id
  genLtQueue : s.inflight = none → ∀ g ∈ genIds s.log, ∀ it ∈ s.queue, g < it.id

def Inv (s : ChatState) : Prop := InvCore s ∧ CopyOk s

/-- The status of the message with the given ids, as the UI would read it. -/
def msgStatus (s : ChatState) (conversationId messageId : Nat) : Option MessageStatus :=
  (getMsg s conversationId messageId).bind (fun m : Message => m.status)

/-! ### The main-process store (store.ts) -/

/-- The persisted state store.ts keeps: the conversation list and the current
conversation id (null modelled as none). -/
structure StoreState where
  conversations : List Conversation
  currentConversationId : Option Nat
deriving DecidableEq, Repr

/-- deleteConversation from store.ts: filter the list by id; when the deleted
id was current, currentConversationId becomes filtered[0]?.id ?? null. -/
def storeDeleteConversation (id : Nat) (st : StoreState) : StoreState :=
  let conversations := st.conversations.filter (fun c : Conversation => c.id ≠ id)
  if st.currentConversationId = some id then
    { conversations := conversations,
      currentConversationId := conversations.head?.map (fun c : Conversation => c.id) }
  else { st with conversations := conversations }

/-! ### The two Backend Adapter implementations (resetSession) -/

/-- The observable steps of one resetSession call, in program order:
stopCall is this.stopGeneration(), awaitGeneration is awaiting the in-flight
generation promise until it settles, clearContext erases the backend
conversational context (the llama sequence state, or conversationHistory). -/
inductive EngineEvent where
  | stopCall
  | awaitGeneration
  | clearContext
deriving DecidableEq, Repr

/-- resetSession of the local node-llama-cpp engine: throws (none) when not
initialized; when a generation is running it stops it and awaits the
generation promise (if one is recorded) before erasing the sequence state. -/
def localResetSession (initialized isGenerating hasPromise : Bool) :
    Option (List EngineEvent) :=
  if !initialized then none
  else some
    ((if isGenerating then
        [EngineEvent.stopCall] ++
          (if hasPromise then [EngineEvent.awaitGeneration] else [])
      else []) ++ [EngineEvent.clearContext])

/-- resetSession of the remote OpenRouter engine: when a generation is
running it only signals it to stop, then clears conversationHistory at once,
awaiting nothing. -/
def remoteResetSession (isGenerating : Bool) : List EngineEvent :=
  (if isGenerating then [EngineEvent.stopCall] else []) ++
    [EngineEvent.clearContext]

/-- The call clears the backend context only after the in-flight generation
has been awaited to settlement. -/
def WaitsBeforeClearing (evs : List EngineEvent) : Prop :=
  ∀ i : Nat, evs[i]? = some EngineEvent.clearContext →
    ∃ j : Nat, j < i ∧ evs[j]? = some EngineEvent.awaitGeneration

/-! ### Concrete traces used to instantiate the theorems -/

/-- Two sends with the same text into one conversation, the first drained and
settled successfully. -/
def dupState : ChatState :=
  run [Action.send "hi", Action.send "hi", Action.drain,
    Action.settle (GenOutcome.ok { success := true, aborted := false })] initState

/-- One send, not yet drained. -/
def oneSendState : ChatState :=
  run [Action.send "hi"] initState

/-- One send, drained: a generation is in flight. -/
def genState : ChatState :=
  run [Action.send "hi", Action.drain] initState

/-- Two conversations, a send into the displayed second one, drained. -/
def twoConvState : ChatState :=
  run [Action.createConv, Action.createConv, Action.send "hi", Action.drain]
    initState

/-- A send whose conversation is then deleted, leaving its item queued. -/
def orphanState : ChatState :=
  run [Action.send "hi", Action.deleteConv 0] initState


/-! ### Generic list helpers -/

theorem idx_lt_of_getElem? {α : Type} {l : List α} {i : Nat} {a : α}
    (h : l[i]? = some a) : i < l.length := by
  by_contra hn
  rw [List.getElem?_eq_none (Nat.le_of_not_lt hn)] at h
  exact Option.noConfusion h

theorem mem_of_getElem? {α : Type} {l : List α} {i : Nat} {a : α}
    (h : l[i]? = some a) : a ∈ l :=
  List.mem_iff_getElem?.mpr ⟨i, h⟩

/-- In a list whose image under f has no duplicates, positions of elements
with equal f-value coincide. -/
theorem nodup_map_idx_unique {α β : Type} {l : List α} {f : α → β} {i j : Nat} {a b : α}
    (hnd : (l.map f).Nodup) (hi : l[i]? = some a) (hj : l[j]? = some b)
    (hf : f a = f b) : i = j := by
  have hi' : (l.map f)[i]? = some (f a) := by rw [List.getElem?_map]; rw [hi]; rfl
  have hj' : (l.map f)[j]? = some (f b) := by rw [List.getElem?_map]; rw [hj]; rfl
  have hlt : i < (l.map f).length := idx_lt_of_getElem? hi'
  exact List.getElem?_inj hlt hnd (by rw [hi', hj', hf])

theorem jsFindIndex_spec {p : Message → Bool} {l : List Message} {i : Nat}
    (h : jsFindIndex p l = some i) : ∃ x, l[i]? = some x ∧ p x := by
  induction l generalizing i with
  | nil => simp [jsFindIndex] at h
  | cons m ms ih =>
    by_cases hp : p m
    · simp [jsFindIndex, hp] at h
      exact h ▸ ⟨m, by simp, hp⟩
    · simp [jsFindIndex, hp] at h
      obtain ⟨i', hi', rfl⟩ := h
      obtain ⟨x, hx, hpx⟩ := ih hi'
      exact ⟨x, by simpa using hx, hpx⟩

theorem jsFindIndex_first {p : Message → Bool} {l : List Message} {j : Nat} {x : Message}
    (hj : l[j]? = some x) (hp : p x) : ∃ i, jsFindIndex p l = some i ∧ i ≤ j := by
  induction l generalizing j with
  | nil => simp at hj
  | cons m ms ih =>
    by_cases hpm : p m
    · exact ⟨0, by simp [jsFindIndex, hpm], Nat.zero_le j⟩
    · cases j with
      | zero =>
        simp at hj
        exact absurd (hj ▸ hp) (by simpa using hpm)
      | succ j' =>
        simp at hj
        obtain ⟨i, hi, hle⟩ := ih hj
        exact ⟨i + 1, by simp [jsFindIndex, hpm, hi], Nat.succ_le_succ hle⟩

theorem find?_eq_some_of_pred {α : Type} {l : List α} {p : α → Bool} {x : α}
    (hx : x ∈ l) (hp : p x) : ∃ y, l.find? p = some y ∧ p y ∧ y ∈ l := by
  have hs : (l.find? p).isSome := List.find?_isSome.mpr ⟨x, hx, hp⟩
  obtain ⟨y, hy⟩ := Option.isSome_iff_exists.mp hs
  exact ⟨y, hy, List.find?_some hy, List.mem_of_find?_eq_some hy⟩

/-! ### Transport lemmas for the message-updating transforms -/

theorem updMsg_id (messageId : Nat) (status : MessageStatus) (content? : Option String)
    (m : Message) : (updMsg messageId status content? m).id = m.id := by
  unfold updMsg
  split <;> rfl

theorem updMsg_role (messageId : Nat) (status : MessageStatus) (content? : Option String)
    (m : Message) : (updMsg messageId status content? m).role = m.role := by
  unfold updMsg
  split <;> rfl

theorem updMsg_status_of_ne {messageId : Nat} {status : MessageStatus}
    {content? : Option String} {m : Message} (h : m.id ≠ messageId) :
    updMsg messageId status content? m = m := by
  unfold updMsg
  simp [h]

theorem updateConvStatus_id (conversationId messageId : Nat) (status : MessageStatus)
    (content? : Option String) (conv : Conversation) :
    (updateConvStatus conversationId messageId status content? conv).id = conv.id := by
  unfold updateConvStatus
  split <;> rfl

theorem updateConvStatus_of_ne {conversationId messageId : Nat} {status : MessageStatus}
    {content? : Option String} {conv : Conversation} (h : conv.id ≠ conversationId) :
    updateConvStatus conversationId messageId status content? conv = conv := by
  unfold updateConvStatus
  simp [h]

theorem updateConvStatus_messages_of_eq {conversationId messageId : Nat}
    {status : MessageStatus} {content? : Option String} {conv : Conversation}
    (h : conv.id = conversationId) :
    (updateConvStatus conversationId messageId status content? conv).messages =
      conv.messages.map (updMsg messageId status content?) := by
  unfold updateConvStatus
  simp [h]

theorem updateConvStatus_map_id (conversationId messageId : Nat) (status : MessageStatus)
    (content? : Option String) (conv : Conversation) :
    (updateConvStatus conversationId messageId status content? conv).messages.map
      (fun m : Message => m.id) = conv.messages.map (fun m : Message => m.id) := by
  unfold updateConvStatus
  split
  · rfl
  · simp [List.map_map, Function.comp_def, updMsg_id]

theorem updateConvStatus_getElem? (conversationId messageId : Nat) (status : MessageStatus)
    (content? : Option String) (conv : Conversation) (i : Nat) :
    (updateConvStatus conversationId messageId status content? conv).messages[i]? =
      if conv.id = conversationId then
        (conv.messages[i]?).map (updMsg messageId status content?)
      else conv.messages[i]? := by
  unfold updateConvStatus
  split <;> rename_i h
  · simp [h]
  · simp only [not_not] at h
    simp [h, List.getElem?_map]

theorem updateConversationMessages_id (targetConvId : Nat) (newContent : String)
    (conv : Conversation) :
    (updateConversationMessages targetConvId newContent conv).id = conv.id := by
  unfold updateConversationMessages
  split
  · rfl
  · split
    · split <;> rfl
    · rfl

theorem updateConversationMessages_length (targetConvId : Nat) (newContent : String)
    (conv : Conversation) :
    (updateConversationMessages targetConvId newContent conv).messages.length =
      conv.messages.length := by
  unfold updateConversationMessages
  split
  · rfl
  · split
    · split
      · rename_i heq _
        have hne : conv.messages ≠ [] := by
          intro h0
          rw [h0] at heq
          exact Option.noConfusion heq
        simp only [List.length_append, List.length_dropLast, List.length_cons,
          List.length_nil]
        have : 0 < conv.messages.length := List.length_pos.mpr hne
        omega
      · rfl
    · rfl

/-- Pointwise effect of the onChunk conversation transform: every position is
unchanged, or holds an assistant message in generating state whose content
was replaced. -/
theorem updateConversationMessages_getElem? (targetConvId : Nat) (newContent : String)
    (conv : Conversation) (i : Nat) :
    (updateConversationMessages targetConvId newContent conv).messages[i]? =
        conv.messages[i]? ∨
      ∃ m, conv.messages[i]? = some m ∧ m.role = Role.assistant ∧
        m.status = some MessageStatus.generating ∧
        (updateConversationMessages targetConvId newContent conv).messages[i]? =
          some { m with content := newContent } := by
  unfold updateConversationMessages
  split
  · exact Or.inl rfl
  · split
    · split
      · rename_i lastMessage heq hcond
        have hne : conv.messages ≠ [] := by
          intro h0
          rw [h0] at heq
          exact Option.noConfusion heq
        have hpos : 0 < conv.messages.length := List.length_pos.mpr hne
        by_cases hi : i < conv.messages.length - 1
        · left
          simp only
          rw [List.getElem?_append_left (by simpa [List.length_dropLast] using hi),
            List.dropLast_eq_take, List.getElem?_take, if_pos hi]
        · by_cases hi2 : i = conv.messages.length - 1
          · right
            subst hi2
            have hlast : conv.messages[conv.messages.length - 1]? = some lastMessage := by
              rw [← List.getLast?_eq_getElem?]
              exact heq
            refine ⟨lastMessage, hlast, hcond.1, hcond.2, ?_⟩
            simp only
            rw [List.getElem?_append_right (by simp [List.length_dropLast])]
            simp [List.length_dropLast]
          · left
            have hge : conv.messages.length ≤ i := by omega
            simp only
            rw [List.getElem?_eq_none (l := conv.messages) hge,
              List.getElem?_eq_none]
            simp only [List.length_append, List.length_dropLast, List.length_cons,
              List.length_nil]
            omega
      · exact Or.inl rfl
    · exact Or.inl rfl

theorem updateConversationMessages_map_id (targetConvId : Nat) (newContent : String)
    (conv : Conversation) :
    (updateConversationMessages targetConvId newContent conv).messages.map
        (fun m : Message => m.id) =
      conv.messages.map (fun m : Message => m.id) := by
  apply List.ext_getElem?
  intro n
  rw [List.getElem?_map, List.getElem?_map]
  rcases updateConversationMessages_getElem? targetConvId newContent conv n with h | ⟨m, hm, _, _, h⟩
  · rw [h]
  · rw [h, hm]
    rfl


theorem genIds_append (l1 l2 : List ECall) :
    genIds (l1 ++ l2) = genIds l1 ++ genIds l2 := by
  simp [genIds, List.filterMap_append]

theorem eq_of_mem_of_id_eq {l : List Conversation}
    (hnd : l.Pairwise (fun a b => a.id ≠ b.id)) {c c' : Conversation}
    (hc : c ∈ l) (hc' : c' ∈ l) (hid : c.id = c'.id) : c = c' := by
  by_contra hne
  have hsym : Symmetric (fun a b : Conversation => a.id ≠ b.id) :=
    fun a b h => h ∘ Eq.symm
  exact (List.Pairwise.forall hsym hnd hc hc' hne) hid

/-- InvCore transports across states that agree on everything it mentions. -/
theorem invCore_of_eq {s t : ChatState} (h : InvCore s)
    (hconvs : t.conversations = s.conversations)
    (hqueue : t.queue = s.queue)
    (hinf : t.inflight = s.inflight)
    (hgen : t.isGenerating = s.isGenerating)
    (hproc : t.isProcessing = s.isProcessing)
    (heng : t.engineGeneratingConvId = s.engineGeneratingConvId)
    (hnext : t.nextId = s.nextId)
    (hlog : genIds t.log = genIds s.log) : InvCore t where
  convIdLt := by rw [hconvs, hnext]; exact h.convIdLt
  msgIdLt := by rw [hconvs, hnext]; exact h.msgIdLt
  itemLt := by rw [hqueue, hnext]; exact h.itemLt
  convNodup := by rw [hconvs]; exact h.convNodup
  msgNodupIn := by rw [hconvs]; exact h.msgNodupIn
  msgDisjoint := by rw [hconvs]; exact h.msgDisjoint
  genFlag := by rw [hgen, hinf]; exact h.genFlag
  procFlag := by rw [hproc, hinf]; exact h.procFlag
  engineEq := by rw [heng, hinf]; exact h.engineEq
  genOnly := by rw [hconvs, hinf]; exact h.genOnly
  inflightMsg := by rw [hinf, hnext, hqueue, hconvs]; exact h.inflightMsg
  inflightHead := by rw [hinf, hqueue]; exact h.inflightHead
  queueOwner := by rw [hqueue, hconvs]; exact h.queueOwner
  queuePairs := by rw [hqueue, hconvs]; exact h.queuePairs
  queuedSt := by rw [hqueue, hinf, hconvs]; exact h.queuedSt
  queueOrd := by rw [hqueue, hconvs]; exact h.queueOrd
  qSorted := by rw [hqueue]; exact h.qSorted
  genBound := by rw [hlog, hnext]; exact h.genBound
  genSorted := by rw [hlog]; exact h.genSorted
  genLe := by rw [hinf, hlog]; exact h.genLe
  genLtQueue := by rw [hinf, hlog, hqueue]; exact h.genLtQueue

theorem invCore_init : InvCore initState where
  convIdLt := by intro c hc; simp [initState] at hc
  msgIdLt := by intro c hc; simp [initState] at hc
  itemLt := by intro it hit; simp [initState] at hit
  convNodup := by simp [initState]
  msgNodupIn := by intro c hc; simp [initState] at hc
  msgDisjoint := by simp [initState]
  genFlag := rfl
  procFlag := rfl
  engineEq := rfl
  genOnly := by intro c hc; simp [initState] at hc
  inflightMsg := by intro inf h; simp [initState] at h
  inflightHead := by intro inf h; simp [initState] at h
  queueOwner := by intro it hit; simp [initState] at hit
  queuePairs := by intro it hit; simp [initState] at hit
  queuedSt := by intro it hit; simp [initState] at hit
  queueOrd := by intro j k itj itk hjk hj; simp [initState] at hj
  qSorted := by simp [initState]
  genBound := by intro g hg; simp [initState, genIds] at hg
  genSorted := by simp [initState, genIds]
  genLe := by intro inf h; simp [initState] at h
  genLtQueue := by intro _ g hg; simp [initState, genIds] at hg

theorem inv_init : Inv initState :=
  ⟨invCore_init, by intro c hc; simp [initState] at hc⟩


/-! ### Invariant preservation: operations that only touch the current
conversation, the markers or the log -/

theorem invCore_stop {s : ChatState} (h : InvCore s) : InvCore (stopGeneration s) := by
  refine invCore_of_eq h rfl rfl rfl rfl rfl rfl rfl ?_
  simp [stopGeneration, genIds_append, genIds]

theorem copyOk_stop {s : ChatState} (h : CopyOk s) : CopyOk (stopGeneration s) := h

theorem invCore_pendingReset {s : ChatState} (h : InvCore s) :
    InvCore (performPendingReset s) := by
  unfold performPendingReset
  split
  · exact h
  · split
    · exact h
    · simp only
      split
      · split
        · split
          · exact invCore_of_eq h rfl rfl rfl rfl rfl rfl rfl
              (by simp [genIds_append, genIds])
          · exact invCore_of_eq h rfl rfl rfl rfl rfl rfl rfl
              (by simp [genIds_append, genIds])
        · exact invCore_of_eq h rfl rfl rfl rfl rfl rfl rfl
            (by simp [genIds_append, genIds])
      · exact invCore_of_eq h rfl rfl rfl rfl rfl rfl rfl
          (by simp [genIds_append, genIds])

theorem performPendingReset_conversations (s : ChatState) :
    (performPendingReset s).conversations = s.conversations := by
  unfold performPendingReset
  split
  · rfl
  · split
    · rfl
    · simp only
      split
      · split
        · split <;> rfl
        · rfl
      · rfl

theorem performPendingReset_current (s : ChatState) :
    (performPendingReset s).currentConversation = s.currentConversation := by
  unfold performPendingReset
  split
  · rfl
  · split
    · rfl
    · simp only
      split
      · split
        · split <;> rfl
        · rfl
      · rfl

theorem copyOk_pendingReset {s : ChatState} (h : CopyOk s) :
    CopyOk (performPendingReset s) := by
  intro c hc
  rw [performPendingReset_current] at hc
  rw [performPendingReset_conversations]
  exact h c hc

theorem invCore_selectImmediate {s : ChatState} (h : InvCore s)
    (conversation : Conversation) (id : Nat) :
    InvCore (selectImmediate conversation id s) := by
  unfold selectImmediate
  simp only
  split
  · split
    · exact invCore_of_eq h rfl rfl rfl rfl rfl rfl rfl
        (by simp [genIds_append, genIds])
    · exact invCore_of_eq h rfl rfl rfl rfl rfl rfl rfl
        (by simp [genIds_append, genIds])
  · exact invCore_of_eq h rfl rfl rfl rfl rfl rfl rfl
      (by simp [genIds_append, genIds])

theorem selectImmediate_conversations (s : ChatState) (conversation : Conversation)
    (id : Nat) :
    (selectImmediate conversation id s).conversations = s.conversations := by
  unfold selectImmediate
  simp only
  split
  · split <;> rfl
  · rfl

theorem selectImmediate_current (s : ChatState) (conversation : Conversation)
    (id : Nat) :
    (selectImmediate conversation id s).currentConversation = some conversation := by
  unfold selectImmediate
  simp only
  split
  · split <;> rfl
  · rfl

theorem invCore_select {s : ChatState} (h : InvCore s) (id : Nat) :
    InvCore (selectConversation id s) := by
  unfold selectConversation
  split
  · exact h
  · split
    · split
      · exact invCore_of_eq h rfl rfl rfl rfl rfl rfl rfl
          (by simp [genIds_append, genIds])
      · exact invCore_selectImmediate h _ _
    · exact invCore_selectImmediate h _ _

/-- When the selected conversation exists, selectConversation repairs the
copy invariant regardless of the input state. -/
theorem copyOk_select_found {s : ChatState} {id : Nat} {conversation : Conversation}
    (hfind : s.conversations.find? (fun c : Conversation => c.id = id) = some conversation) :
    CopyOk (selectConversation id s) := by
  unfold selectConversation
  rw [hfind]
  have hmem : conversation ∈ s.conversations := List.mem_of_find?_eq_some hfind
  split
  · rename_i heq
    exact absurd heq (by simp)
  · rename_i conv' heq
    injection heq with heq
    subst heq
    split
    · split
      · intro c hc
        simp only at hc
        cases hc
        exact hmem
      · intro c hc
        rw [selectImmediate_current] at hc
        cases hc
        rw [selectImmediate_conversations]
        exact hmem
    · intro c hc
      rw [selectImmediate_current] at hc
      cases hc
      rw [selectImmediate_conversations]
      exact hmem

theorem copyOk_select {s : ChatState} (h : CopyOk s) (id : Nat) :
    CopyOk (selectConversation id s) := by
  rcases hfind : s.conversations.find? (fun c : Conversation => c.id = id) with _ | conversation
  · unfold selectConversation
    rw [hfind]
    exact h
  · exact copyOk_select_found hfind

/-! ### Invariant preservation: conversation-map transforms preserving ids
and messages (renameConversation) -/

theorem invCore_map_shape {s : ChatState} (h : InvCore s) (f : Conversation → Conversation)
    (hid : ∀ c ∈ s.conversations, (f c).id = c.id)
    (hids : ∀ c ∈ s.conversations, convMsgIds (f c) = convMsgIds c)
    (hcorr : ∀ c ∈ s.conversations, ∀ m' ∈ (f c).messages,
      ∃ m ∈ c.messages, m'.id = m.id ∧ m'.role = m.role ∧ m'.status = m.status)
    (hpair : ∀ c ∈ s.conversations, ∀ it : QueueItem, ∀ i : Nat,
      pairAt (f c) it i ↔ pairAt c it i)
    (t : ChatState)
    (hconvs : t.conversations = s.conversations.map f)
    (hqueue : t.queue = s.queue) (hinf : t.inflight = s.inflight)
    (hgen : t.isGenerating = s.isGenerating) (hproc : t.isProcessing = s.isProcessing)
    (heng : t.engineGeneratingConvId = s.engineGeneratingConvId)
    (hnext : t.nextId = s.nextId) (hlog : genIds t.log = genIds s.log) : InvCore t := by
  have hmem : ∀ c' ∈ t.conversations, ∃ c ∈ s.conversations, c' = f c := by
    intro c' hc'
    rw [hconvs] at hc'
    obtain ⟨c, hc, rfl⟩ := List.mem_map.mp hc'
    exact ⟨c, hc, rfl⟩
  refine ⟨?_, ?_, ?_, ?_, ?_, ?_, ?_, ?_, ?_, ?_, ?_, ?_, ?_, ?_, ?_, ?_, ?_, ?_, ?_, ?_, ?_⟩
  · intro c' hc'
    obtain ⟨c, hc, rfl⟩ := hmem c' hc'
    rw [hid c hc, hnext]
    exact h.convIdLt c hc
  · intro c' hc' m' hm'
    obtain ⟨c, hc, rfl⟩ := hmem c' hc'
    obtain ⟨m, hm, hmid, _, _⟩ := hcorr c hc m' hm'
    rw [hmid, hnext]
    exact h.msgIdLt c hc m hm
  · rw [hqueue, hnext]; exact h.itemLt
  · rw [hconvs, List.pairwise_map]
    exact List.Pairwise.imp_of_mem
      (fun ha hb hR => by
        rw [hid _ ha, hid _ hb]
        exact hR) h.convNodup
  · intro c' hc'
    obtain ⟨c, hc, rfl⟩ := hmem c' hc'
    rw [hids c hc]
    exact h.msgNodupIn c hc
  · rw [hconvs, List.pairwise_map]
    exact List.Pairwise.imp_of_mem
      (fun ha hb hR => by
        rw [hids _ ha, hids _ hb]
        exact hR) h.msgDisjoint
  · rw [hgen, hinf]; exact h.genFlag
  · rw [hproc, hinf]; exact h.procFlag
  · rw [heng, hinf]; exact h.engineEq
  · intro c' hc' m' hm' hst
    obtain ⟨c, hc, rfl⟩ := hmem c' hc'
    obtain ⟨m, hm, hmid, _, hmst⟩ := hcorr c hc m' hm'
    rw [hid c hc, hinf, hmid]
    exact h.genOnly c hc m hm (hmst ▸ hst)
  · intro inf hif
    rw [hinf] at hif
    obtain ⟨h1, h2, h3⟩ := h.inflightMsg inf hif
    refine ⟨by rw [hnext]; exact h1, by rw [hqueue]; exact h2, ?_⟩
    intro c' hc' m' hm' hmid
    obtain ⟨c, hc, rfl⟩ := hmem c' hc'
    obtain ⟨m, hm, hmid', hmrole, hmst⟩ := hcorr c hc m' hm'
    obtain ⟨ha, hb, hcst⟩ := h3 c hc m hm (hmid' ▸ hmid)
    exact ⟨by rw [hid c hc]; exact ha, by rw [hmrole]; exact hb, by rw [hmst]; exact hcst⟩
  · intro inf hif
    rw [hinf] at hif
    rw [hqueue]
    exact h.inflightHead inf hif
  · intro it hit c' hc' m' hm' hmid
    rw [hqueue] at hit
    obtain ⟨c, hc, rfl⟩ := hmem c' hc'
    obtain ⟨m, hm, hmid', hmrole, _⟩ := hcorr c hc m' hm'
    obtain ⟨ha, hb⟩ := h.queueOwner it hit c hc m hm (hmid' ▸ hmid)
    exact ⟨by rw [hid c hc]; exact ha, by rw [hmrole]; exact hb⟩
  · intro it hit c' hc' hcid
    rw [hqueue] at hit
    obtain ⟨c, hc, rfl⟩ := hmem c' hc'
    rw [hid c hc] at hcid
    obtain ⟨i, hp⟩ := h.queuePairs it hit c hc hcid
    exact ⟨i, (hpair c hc it i).mpr hp⟩
  · intro it hit hni c' hc' m' hm' hmid
    rw [hqueue] at hit
    rw [hinf] at hni
    obtain ⟨c, hc, rfl⟩ := hmem c' hc'
    obtain ⟨m, hm, hmid', _, hmst⟩ := hcorr c hc m' hm'
    rw [hmst]
    exact h.queuedSt it hit hni c hc m hm (hmid' ▸ hmid)
  · intro j k itj itk hjk hj hk hcid c' hc' hc'id ij ik hpj hpk
    rw [hqueue] at hj hk
    obtain ⟨c, hc, rfl⟩ := hmem c' hc'
    rw [hid c hc] at hc'id
    exact h.queueOrd j k itj itk hjk hj hk hcid c hc hc'id ij ik
      ((hpair c hc itj ij).mp hpj) ((hpair c hc itk ik).mp hpk)
  · rw [hqueue]; exact h.qSorted
  · rw [hlog, hnext]; exact h.genBound
  · rw [hlog]; exact h.genSorted
  · intro inf hif
    rw [hinf] at hif
    rw [hlog]
    exact h.genLe inf hif
  · intro hni
    rw [hinf] at hni
    rw [hlog, hqueue]
    exact h.genLtQueue hni

theorem invCore_rename {s : ChatState} (h : InvCore s)
    (id : Nat) (newTitle : String) : InvCore (renameConversation id newTitle s) := by
  unfold renameConversation
  rcases hfind : s.conversations.find? (fun c : Conversation => c.id = id) with _ | conversation
  · exact h
  · simp only
    split
    · exact h
    · have hcid : conversation.id = id := by
        have := List.find?_some hfind
        simpa using this
      have hmemc : conversation ∈ s.conversations := List.mem_of_find?_eq_some hfind
      have hmsg : ∀ c ∈ s.conversations,
          ((fun c : Conversation => if c.id = id then
            { conversation with title := jsTrim newTitle } else c) c).messages = c.messages := by
        intro c hc
        by_cases hx : c.id = id
        · have hcc : c = conversation :=
            eq_of_mem_of_id_eq h.convNodup hc hmemc (by rw [hx, hcid])
          subst hcc
          simp [hcid]
        · simp [hx]
      refine invCore_map_shape h _ ?_ ?_ ?_ ?_ _ rfl rfl rfl rfl rfl rfl rfl
        (by simp [genIds_append, genIds])
      · intro c hc
        by_cases hx : c.id = id
        · simp [hx, hcid]
        · simp [hx]
      · intro c hc
        unfold convMsgIds
        rw [hmsg c hc]
      · intro c hc m' hm'
        rw [hmsg c hc] at hm'
        exact ⟨m', hm', rfl, rfl, rfl⟩
      · intro c hc it i
        unfold pairAt
        rw [hmsg c hc]

theorem copyOk_rename {s : ChatState} (hcopy : CopyOk s)
    (id : Nat) (newTitle : String) : CopyOk (renameConversation id newTitle s) := by
  unfold renameConversation
  rcases hfind : s.conversations.find? (fun c : Conversation => c.id = id) with _ | conversation
  · exact hcopy
  · simp only
    split
    · exact hcopy
    · have hcid : conversation.id = id := by
        have := List.find?_some hfind
        simpa using this
      have hmemc : conversation ∈ s.conversations := List.mem_of_find?_eq_some hfind
      intro c hc
      simp only at hc ⊢
      split at hc <;> rename_i hcur
      · cases hc
        refine List.mem_map.mpr ⟨conversation, hmemc, ?_⟩
        simp [hcid]
      · rcases hx : s.currentConversation with _ | ccur
        · rw [hx] at hc
          exact absurd hc (by simp)
        · rw [hx] at hc
          cases hc
          have hcmem := hcopy c hx
          have hne : c.id ≠ id := by
            rw [hx] at hcur
            simpa using hcur
          refine List.mem_map.mpr ⟨c, hcmem, ?_⟩
          simp [hne]

/-! ### Invariant preservation: prepending a fresh empty conversation
(createConversation, and the create branch of sendMessage) -/

theorem invCore_prepend_fresh {s : ChatState} (h : InvCore s) (L : List ECall)
    (hL : genIds L = []) :
    InvCore { s with
      conversations := { id := s.nextId, title := "New Chat", messages := [] } :: s.conversations,
      currentConversation := some { id := s.nextId, title := "New Chat", messages := [] },
      nextId := s.nextId + 1,
      log := s.log ++ L } := by
  refine ⟨?_, ?_, ?_, ?_, ?_, ?_, ?_, ?_, ?_, ?_, ?_, ?_, ?_, ?_, ?_, ?_, ?_, ?_, ?_, ?_, ?_⟩
  · intro c hc
    rcases List.mem_cons.mp hc with rfl | hc
    · simp
    · exact Nat.lt_succ_of_lt (h.convIdLt c hc)
  · intro c hc m hm
    rcases List.mem_cons.mp hc with rfl | hc
    · simp at hm
    · exact Nat.lt_succ_of_lt (h.msgIdLt c hc m hm)
  · intro it hit
    obtain ⟨h1, h2⟩ := h.itemLt it hit
    exact ⟨Nat.lt_succ_of_lt h1, Nat.lt_succ_of_lt h2⟩
  · refine List.Pairwise.cons ?_ h.convNodup
    intro c hc
    simp only
    intro hcontra
    exact absurd (hcontra ▸ h.convIdLt c hc) (Nat.lt_irrefl s.nextId)
  · intro c hc
    rcases List.mem_cons.mp hc with rfl | hc
    · simp [convMsgIds]
    · exact h.msgNodupIn c hc
  · refine List.Pairwise.cons ?_ h.msgDisjoint
    intro c hc x hx
    simp [convMsgIds] at hx
  · exact h.genFlag
  · exact h.procFlag
  · exact h.engineEq
  · intro c hc m hm hst
    rcases List.mem_cons.mp hc with rfl | hc
    · simp at hm
    · exact h.genOnly c hc m hm hst
  · intro inf hif
    obtain ⟨h1, h2, h3⟩ := h.inflightMsg inf hif
    refine ⟨Nat.lt_succ_of_lt h1, h2, ?_⟩
    intro c hc m hm hmid
    rcases List.mem_cons.mp hc with rfl | hc
    · simp at hm
    · exact h3 c hc m hm hmid
  · exact h.inflightHead
  · intro it hit c hc m hm hmid
    rcases List.mem_cons.mp hc with rfl | hc
    · simp at hm
    · exact h.queueOwner it hit c hc m hm hmid
  · intro it hit c hc hcid
    rcases List.mem_cons.mp hc with rfl | hc
    · exfalso
      obtain ⟨_, h2⟩ := h.itemLt it hit
      simp only at hcid
      rw [← hcid] at h2
      exact Nat.lt_irrefl _ h2
    · exact h.queuePairs it hit c hc hcid
  · intro it hit hni c hc m hm hmid
    rcases List.mem_cons.mp hc with rfl | hc
    · simp at hm
    · exact h.queuedSt it hit hni c hc m hm hmid
  · intro j k itj itk hjk hj hk hcid c hc hc'id ij ik hpj hpk
    rcases List.mem_cons.mp hc with rfl | hc
    · exfalso
      obtain ⟨_, h2⟩ := h.itemLt itj (mem_of_getElem? hj)
      simp only at hc'id
      rw [← hc'id] at h2
      exact Nat.lt_irrefl _ h2
    · exact h.queueOrd j k itj itk hjk hj hk hcid c hc hc'id ij ik hpj hpk
  · exact h.qSorted
  · intro g hg
    simp only [genIds_append, hL, List.append_nil] at hg
    exact Nat.lt_succ_of_lt (h.genBound g hg)
  · simp only [genIds_append, hL, List.append_nil]
    exact h.genSorted
  · intro inf hif g hg
    simp only [genIds_append, hL, List.append_nil] at hg
    exact h.genLe inf hif g hg
  · intro hni g hg
    simp only [genIds_append, hL, List.append_nil] at hg
    exact h.genLtQueue hni g hg

theorem invCore_createConv {s : ChatState} (h : InvCore s) :
    InvCore (createConversation s) :=
  invCore_prepend_fresh h _ (by simp [genIds])

theorem copyOk_createConv {s : ChatState} : CopyOk (createConversation s) := by
  intro c hc
  cases hc
  exact List.mem_cons_self _ _


/-! ### Invariant preservation: chunk delivery -/

theorem updateConversationMessages_of_ne {targetConvId : Nat} {newContent : String}
    {conv : Conversation} (h : conv.id ≠ targetConvId) :
    updateConversationMessages targetConvId newContent conv = conv := by
  unfold updateConversationMessages
  simp [h]

theorem chunk_msg_corr (targetConvId : Nat) (newContent : String) (c : Conversation) :
    ∀ m' ∈ (updateConversationMessages targetConvId newContent c).messages,
      ∃ m ∈ c.messages, m'.id = m.id ∧ m'.role = m.role ∧ m'.status = m.status := by
  intro m' hm'
  obtain ⟨i, hi⟩ := List.mem_iff_getElem?.mp hm'
  rcases updateConversationMessages_getElem? targetConvId newContent c i with
    heq | ⟨m, hm, _, _, hres⟩
  · rw [heq] at hi
    exact ⟨m', mem_of_getElem? hi, rfl, rfl, rfl⟩
  · rw [hres] at hi
    cases hi
    exact ⟨m, mem_of_getElem? hm, rfl, rfl, rfl⟩

theorem pairAt_chunk_iff (targetConvId : Nat) (newContent : String) (c : Conversation)
    (it : QueueItem) (i : Nat) :
    pairAt (updateConversationMessages targetConvId newContent c) it i ↔ pairAt c it i := by
  constructor
  · rintro ⟨u', a', hu', ha', hur, huc, har, haid⟩
    rcases updateConversationMessages_getElem? targetConvId newContent c i with
      hequ | ⟨mu, hmu, hmur, _, hresu⟩
    · rcases updateConversationMessages_getElem? targetConvId newContent c (i + 1) with
        heqa | ⟨ma, hma, hmar, _, hresa⟩
      · exact ⟨u', a', hequ ▸ hu', heqa ▸ ha', hur, huc, har, haid⟩
      · rw [hresa] at ha'
        cases ha'
        exact ⟨u', ma, hequ ▸ hu', hma, hur, huc, hmar, haid⟩
    · rw [hresu] at hu'
      cases hu'
      rw [hmur] at hur
      exact absurd hur (by simp)
  · rintro ⟨u, a, hu, ha, hur, huc, har, haid⟩
    rcases updateConversationMessages_getElem? targetConvId newContent c i with
      hequ | ⟨mu, hmu, hmur, _, hresu⟩
    · rcases updateConversationMessages_getElem? targetConvId newContent c (i + 1) with
        heqa | ⟨ma, hma, hmar, _, hresa⟩
      · exact ⟨u, a, hequ ▸ hu, heqa ▸ ha, hur, huc, har, haid⟩
      · have haa : ma = a := Option.some_inj.mp (hma.symm.trans ha)
        subst haa
        exact ⟨u, { ma with content := newContent }, hequ ▸ hu, hresa, hur, huc, hmar, haid⟩
    · rw [hmu] at hu
      cases hu
      rw [hur] at hmur
      exact absurd hmur.symm (by simp)

theorem invCore_chunk {s : ChatState} (h : InvCore s) (cid? : Option Nat) (text : String) :
    InvCore (onChunk cid? text s) := by
  unfold onChunk
  simp only
  split
  · exact h
  · refine invCore_map_shape h _ ?_ ?_ ?_ ?_ _ rfl rfl rfl rfl rfl rfl rfl rfl
    · intro c _
      exact updateConversationMessages_id _ _ _
    · intro c _
      unfold convMsgIds
      exact updateConversationMessages_map_id _ _ _
    · intro c _
      exact chunk_msg_corr _ _ _
    · intro c _ it i
      exact pairAt_chunk_iff _ _ _ _ _

theorem copyOk_chunk {s : ChatState} (hcopy : CopyOk s) (cid? : Option Nat) (text : String) :
    CopyOk (onChunk cid? text s) := by
  unfold onChunk
  simp only
  split
  · exact hcopy
  · rename_i tq t heq
    intro c hc
    simp only at hc ⊢
    split at hc <;> rename_i hcur
    · rcases hx : s.currentConversation with _ | ccur
      · rw [hx] at hc
        exact absurd hc (by simp)
      · rw [hx] at hc
        simp only [Option.map] at hc
        cases hc
        exact List.mem_map_of_mem _ (hcopy ccur hx)
    · rcases hx : s.currentConversation with _ | ccur
      · rw [hx] at hc
        exact absurd hc (by simp)
      · rw [hx] at hc
        cases hc
        have hne : c.id ≠ t := by
          rw [hx] at hcur
          intro hcontra
          exact hcur (by simp [hcontra])
        exact List.mem_map.mpr ⟨c, hcopy c hx, updateConversationMessages_of_ne hne⟩


/-! ### Invariant preservation: sendMessage -/

theorem invCore_send_core {s1 : ChatState} {conv updated : Conversation}
    {U A : Message} {newItem : QueueItem} {tcontent title' : String}
    (h : InvCore s1) (hmem : conv ∈ s1.conversations)
    (hU : U = { id := s1.nextId, role := Role.user, content := tcontent,
                status := some MessageStatus.complete })
    (hA : A = { id := s1.nextId + 1, role := Role.assistant, content := "",
                status := some MessageStatus.queued })
    (hupd : updated = { conv with title := title', messages := conv.messages ++ [U, A] })
    (hitem : newItem = { id := s1.nextId + 1, content := tcontent,
                         conversationId := conv.id })
    (t : ChatState)
    (hconvs : t.conversations = s1.conversations.map
      (fun c => if c.id = conv.id then updated else c))
    (hqueue : t.queue = s1.queue ++ [newItem])
    (hnext : t.nextId = s1.nextId + 2)
    (hinf : t.inflight = s1.inflight)
    (hgen : t.isGenerating = s1.isGenerating)
    (hproc : t.isProcessing = s1.isProcessing)
    (heng : t.engineGeneratingConvId = s1.engineGeneratingConvId)
    (hlog : genIds t.log = genIds s1.log) :
    InvCore t := by
  have hUid : U.id = s1.nextId := by rw [hU]
  have hUrole : U.role = Role.user := by rw [hU]
  have hUst : U.status = some MessageStatus.complete := by rw [hU]
  have hUcontent : U.content = tcontent := by rw [hU]
  have hAid : A.id = s1.nextId + 1 := by rw [hA]
  have hArole : A.role = Role.assistant := by rw [hA]
  have hAst : A.status = some MessageStatus.queued := by rw [hA]
  have hupdid : updated.id = conv.id := by rw [hupd]
  have hupdmsgs : updated.messages = conv.messages ++ [U, A] := by rw [hupd]
  have hitemid : newItem.id = s1.nextId + 1 := by rw [hitem]
  have hitemconv : newItem.conversationId = conv.id := by rw [hitem]
  have hitemcontent : newItem.content = tcontent := by rw [hitem]
  have huniq : ∀ c ∈ s1.conversations, c.id = conv.id → c = conv :=
    fun c hc hcid => eq_of_mem_of_id_eq h.convNodup hc hmem hcid
  have hconvlt : conv.id < s1.nextId := h.convIdLt conv hmem
  have hmsglt : ∀ m ∈ conv.messages, m.id < s1.nextId := h.msgIdLt conv hmem
  have hfcases : ∀ c ∈ s1.conversations,
      (c.id ≠ conv.id ∧ (if c.id = conv.id then updated else c) = c) ∨
      (c = conv ∧ (if c.id = conv.id then updated else c) = updated) := by
    intro c hc
    by_cases hx : c.id = conv.id
    · exact Or.inr ⟨huniq c hc hx, by simp [hx]⟩
    · exact Or.inl ⟨hx, by simp [hx]⟩
  have hfid : ∀ c : Conversation,
      (if c.id = conv.id then updated else c).id = c.id := by
    intro c
    by_cases hx : c.id = conv.id
    · simp [hx, hupdid]
    · simp [hx]
  have hocc : ∀ m ∈ updated.messages, m ∈ conv.messages ∨ m = U ∨ m = A := by
    intro m hm
    rw [hupdmsgs] at hm
    rcases List.mem_append.mp hm with h1 | h2
    · exact Or.inl h1
    · right
      simpa using h2
  have hupdids : convMsgIds updated = convMsgIds conv ++ [s1.nextId, s1.nextId + 1] := by
    unfold convMsgIds
    rw [hupdmsgs]
    simp [hUid, hAid]
  have hidslt : ∀ x ∈ convMsgIds conv, x < s1.nextId := by
    intro x hx
    obtain ⟨m, hm, rfl⟩ := List.mem_map.mp hx
    exact hmsglt m hm
  have hupdnodup : (convMsgIds updated).Nodup := by
    rw [hupdids, List.nodup_append]
    refine ⟨h.msgNodupIn conv hmem, by simp, ?_⟩
    intro x hx
    have hxlt := hidslt x hx
    simp
    omega
  have hpair_fwd : ∀ it : QueueItem, ∀ i : Nat, pairAt conv it i → pairAt updated it i := by
    rintro it i ⟨u, a, hu, ha, h1, h2, h3, h4⟩
    refine ⟨u, a, ?_, ?_, h1, h2, h3, h4⟩
    · rw [hupdmsgs, List.getElem?_append_left (idx_lt_of_getElem? hu)]
      exact hu
    · rw [hupdmsgs, List.getElem?_append_left (idx_lt_of_getElem? ha)]
      exact ha
  have hpair_bwd : ∀ it : QueueItem, it.id < s1.nextId → ∀ i : Nat,
      pairAt updated it i → pairAt conv it i ∧ i + 1 < conv.messages.length := by
    rintro it hlt i ⟨u, a, hu, ha, h1, h2, h3, h4⟩
    rw [hupdmsgs] at hu ha
    by_cases hi : i + 1 < conv.messages.length
    · rw [List.getElem?_append_left hi] at ha
      rw [List.getElem?_append_left (Nat.lt_of_succ_lt hi)] at hu
      exact ⟨⟨u, a, hu, ha, h1, h2, h3, h4⟩, hi⟩
    · exfalso
      have hge : conv.messages.length ≤ i + 1 := Nat.le_of_not_lt hi
      rw [List.getElem?_append_right hge] at ha
      rcases hd : i + 1 - conv.messages.length with _ | d
      · rw [hd] at ha
        simp only [List.getElem?_cons_zero] at ha
        have hEq : U.id = it.id := by rw [Option.some_inj.mp ha]; exact h4
        rw [hUid] at hEq
        omega
      · rcases d with _ | d'
        · rw [hd] at ha
          simp only [List.getElem?_cons_succ, List.getElem?_cons_zero] at ha
          have hEq : A.id = it.id := by rw [Option.some_inj.mp ha]; exact h4
          rw [hAid] at hEq
          omega
        · rw [hd] at ha
          simp at ha
  have hpair_new : pairAt updated newItem conv.messages.length := by
    refine ⟨U, A, ?_, ?_, hUrole, by rw [hUcontent, hitemcontent], hArole,
      by rw [hAid, hitemid]⟩
    · rw [hupdmsgs, List.getElem?_append_right (le_refl _)]
      simp
    · rw [hupdmsgs, List.getElem?_append_right (by omega)]
      have harith : conv.messages.length + 1 - conv.messages.length = 1 := by omega
      rw [harith]
      simp
  have hpair_new_unique : ∀ ik : Nat, pairAt updated newItem ik →
      ik = conv.messages.length := by
    rintro ik ⟨u, a, hu, ha, h1, h2, h3, h4⟩
    have hcanon : updated.messages[conv.messages.length + 1]? = some A := by
      rw [hupdmsgs, List.getElem?_append_right (by omega)]
      have harith : conv.messages.length + 1 - conv.messages.length = 1 := by omega
      rw [harith]
      simp
    have hids : a.id = A.id := by
      rw [h4, hitemid, hAid]
    have := nodup_map_idx_unique (f := fun m : Message => m.id)
      (by exact hupdnodup) ha hcanon hids
    omega
  refine ⟨?_, ?_, ?_, ?_, ?_, ?_, ?_, ?_, ?_, ?_, ?_, ?_, ?_, ?_, ?_, ?_, ?_, ?_, ?_, ?_, ?_⟩
  · -- convIdLt
    rw [hconvs, hnext]
    intro c' hc'
    obtain ⟨c, hc, rfl⟩ := List.mem_map.mp hc'
    rw [hfid c]
    have := h.convIdLt c hc
    omega
  · -- msgIdLt
    rw [hconvs, hnext]
    intro c' hc' m hm
    obtain ⟨c, hc, rfl⟩ := List.mem_map.mp hc'
    rcases hfcases c hc with ⟨_, hfc⟩ | ⟨hceq, hfc⟩
    · rw [hfc] at hm
      have := h.msgIdLt c hc m hm
      omega
    · subst hceq
      rw [hfc] at hm
      rcases hocc m hm with h1 | hmu | hma
      · have := hmsglt m h1
        omega
      · subst hmu
        rw [hUid]
        omega
      · subst hma
        rw [hAid]
        omega
  · -- itemLt
    rw [hqueue, hnext]
    intro it hit
    rcases List.mem_append.mp hit with h1 | h2
    · obtain ⟨ha, hb⟩ := h.itemLt it h1
      exact ⟨by omega, by omega⟩
    · simp only [List.mem_singleton] at h2
      subst h2
      rw [hitemid, hitemconv]
      exact ⟨by omega, by omega⟩
  · -- convNodup
    rw [hconvs, List.pairwise_map]
    exact List.Pairwise.imp_of_mem
      (fun ha hb hR => by
        rw [hfid _, hfid _]
        exact hR) h.convNodup
  · -- msgNodupIn
    rw [hconvs]
    intro c' hc'
    obtain ⟨c, hc, rfl⟩ := List.mem_map.mp hc'
    rcases hfcases c hc with ⟨_, hfc⟩ | ⟨hceq, hfc⟩
    · rw [hfc]
      exact h.msgNodupIn c hc
    · rw [hfc]
      exact hupdnodup
  · -- msgDisjoint
    rw [hconvs, List.pairwise_map]
    have hcomb := (h.convNodup).and h.msgDisjoint
    exact List.Pairwise.imp_of_mem
      (fun {a b} ha hb hR => by
        obtain ⟨hneq, hdisj⟩ := hR
        rcases hfcases a ha with ⟨_, hfa⟩ | ⟨haeq, hfa⟩ <;>
          rcases hfcases b hb with ⟨_, hfb⟩ | ⟨hbeq, hfb⟩
        · rw [hfa, hfb]
          exact hdisj
        · rw [hfa, hfb]
          intro x hx
          rw [hupdids]
          intro hmem2
          rcases List.mem_append.mp hmem2 with h1 | h2
          · subst hbeq
            exact hdisj x hx h1
          · have hxa : x < s1.nextId := by
              obtain ⟨m, hm, rfl⟩ := List.mem_map.mp hx
              exact h.msgIdLt a ha m hm
            simp at h2
            omega
        · rw [hfa, hfb]
          intro x hx
          rw [hupdids] at hx
          rcases List.mem_append.mp hx with h1 | h2
          · subst haeq
            exact hdisj x h1
          · intro hmem2
            have hxb : x < s1.nextId := by
              obtain ⟨m, hm, rfl⟩ := List.mem_map.mp hmem2
              exact h.msgIdLt b hb m hm
            simp at h2
            omega
        · exfalso
          rw [haeq, hbeq] at hneq
          exact hneq rfl) hcomb
  · -- genFlag
    rw [hgen, hinf]
    exact h.genFlag
  · -- procFlag
    rw [hproc, hinf]
    exact h.procFlag
  · -- engineEq
    rw [heng, hinf]
    exact h.engineEq
  · -- genOnly
    rw [hconvs, hinf]
    intro c' hc' m hm hst
    obtain ⟨c, hc, rfl⟩ := List.mem_map.mp hc'
    rcases hfcases c hc with ⟨_, hfc⟩ | ⟨hceq, hfc⟩
    · rw [hfc] at hm ⊢
      exact h.genOnly c hc m hm hst
    · subst hceq
      rw [hfc] at hm ⊢
      rcases hocc m hm with h1 | hmu | hma
      · rw [hupdid]
        exact h.genOnly c hmem m h1 hst
      · subst hmu
        rw [hUst] at hst
        exact absurd hst (by simp)
      · subst hma
        rw [hAst] at hst
        exact absurd hst (by simp)
  · -- inflightMsg
    rw [hinf, hnext, hqueue, hconvs]
    intro inf hif
    obtain ⟨h1, h2, h3⟩ := h.inflightMsg inf hif
    have hqne : s1.queue ≠ [] := by
      have := h.inflightHead inf hif
      intro h0
      rw [h0] at this
      exact Option.noConfusion this
    refine ⟨by omega, ?_, ?_⟩
    · intro it hit
      rw [List.drop_append_of_le_length (List.length_pos.mpr hqne)] at hit
      rcases List.mem_append.mp hit with ha | hb
      · exact h2 it ha
      · simp only [List.mem_singleton] at hb
        subst hb
        rw [hitemid]
        omega
    · intro c' hc' m hm hmid
      obtain ⟨c, hc, rfl⟩ := List.mem_map.mp hc'
      rcases hfcases c hc with ⟨_, hfc⟩ | ⟨hceq, hfc⟩
      · rw [hfc] at hm ⊢
        exact h3 c hc m hm hmid
      · subst hceq
        rw [hfc] at hm ⊢
        rcases hocc m hm with hx | hmu | hma
        · obtain ⟨ha, hb, hcst⟩ := h3 c hmem m hx hmid
          exact ⟨by rw [hupdid]; exact ha, hb, hcst⟩
        · exfalso
          subst hmu
          rw [hUid] at hmid
          omega
        · exfalso
          subst hma
          rw [hAid] at hmid
          omega
  · -- inflightHead
    rw [hinf, hqueue]
    intro inf hif
    have hold := h.inflightHead inf hif
    rw [List.head?_append, hold]
    rfl
  · -- queueOwner
    rw [hqueue, hconvs]
    intro it hit c' hc' m hm hmid
    obtain ⟨c, hc, rfl⟩ := List.mem_map.mp hc'
    rcases List.mem_append.mp hit with hito | hitn
    · have hitlt : it.id < s1.nextId := (h.itemLt it hito).1
      rcases hfcases c hc with ⟨_, hfc⟩ | ⟨hceq, hfc⟩
      · rw [hfc] at hm ⊢
        exact h.queueOwner it hito c hc m hm hmid
      · subst hceq
        rw [hfc] at hm ⊢
        rcases hocc m hm with hx | hmu | hma
        · obtain ⟨ha, hb⟩ := h.queueOwner it hito c hmem m hx hmid
          exact ⟨by rw [hupdid]; exact ha, hb⟩
        · exfalso
          subst hmu
          rw [hUid] at hmid
          omega
        · exfalso
          subst hma
          rw [hAid] at hmid
          omega
    · simp only [List.mem_singleton] at hitn
      subst hitn
      rw [hitemid] at hmid
      rcases hfcases c hc with ⟨hcne, hfc⟩ | ⟨hceq, hfc⟩
      · exfalso
        rw [hfc] at hm
        have := h.msgIdLt c hc m hm
        omega
      · subst hceq
        rw [hfc] at hm ⊢
        rcases hocc m hm with hx | hmu | hma
        · exfalso
          have := hmsglt m hx
          omega
        · exfalso
          subst hmu
          rw [hUid] at hmid
          omega
        · subst hma
          exact ⟨by rw [hupdid, hitemconv], hArole⟩
  · -- queuePairs
    rw [hqueue, hconvs]
    intro it hit c' hc' hcid
    obtain ⟨c, hc, rfl⟩ := List.mem_map.mp hc'
    rcases List.mem_append.mp hit with hito | hitn
    · rcases hfcases c hc with ⟨_, hfc⟩ | ⟨hceq, hfc⟩
      · rw [hfc] at hcid ⊢
        exact h.queuePairs it hito c hc hcid
      · subst hceq
        rw [hfc] at hcid ⊢
        rw [hupdid] at hcid
        obtain ⟨i, hp⟩ := h.queuePairs it hito c hmem hcid
        exact ⟨i, hpair_fwd it i hp⟩
    · simp only [List.mem_singleton] at hitn
      subst hitn
      rcases hfcases c hc with ⟨hcne, hfc⟩ | ⟨hceq, hfc⟩
      · exfalso
        rw [hfc] at hcid
        rw [hitemconv] at hcid
        exact hcne hcid
      · subst hceq
        rw [hfc]
        exact ⟨c.messages.length, hpair_new⟩
  · -- queuedSt
    rw [hqueue, hinf, hconvs]
    intro it hit hni c' hc' m hm hmid
    obtain ⟨c, hc, rfl⟩ := List.mem_map.mp hc'
    rcases List.mem_append.mp hit with hito | hitn
    · have hitlt : it.id < s1.nextId := (h.itemLt it hito).1
      rcases hfcases c hc with ⟨_, hfc⟩ | ⟨hceq, hfc⟩
      · rw [hfc] at hm
        exact h.queuedSt it hito hni c hc m hm hmid
      · subst hceq
        rw [hfc] at hm
        rcases hocc m hm with hx | hmu | hma
        · exact h.queuedSt it hito hni c hmem m hx hmid
        · exfalso
          subst hmu
          rw [hUid] at hmid
          omega
        · exfalso
          subst hma
          rw [hAid] at hmid
          omega
    · simp only [List.mem_singleton] at hitn
      subst hitn
      rw [hitemid] at hmid
      rcases hfcases c hc with ⟨hcne, hfc⟩ | ⟨hceq, hfc⟩
      · exfalso
        rw [hfc] at hm
        have := h.msgIdLt c hc m hm
        omega
      · subst hceq
        rw [hfc] at hm
        rcases hocc m hm with hx | hmu | hma
        · exfalso
          have := hmsglt m hx
          omega
        · exfalso
          subst hmu
          rw [hUid] at hmid
          omega
        · subst hma
          exact hAst
  · -- queueOrd
    rw [hqueue, hconvs]
    intro j k itj itk hjk hj hk hcid c' hc' hc'id ij ik hpj hpk
    obtain ⟨c, hc, rfl⟩ := List.mem_map.mp hc'
    by_cases hkq : k < s1.queue.length
    · have hjq : j < s1.queue.length := Nat.lt_trans hjk hkq
      rw [List.getElem?_append_left hjq] at hj
      rw [List.getElem?_append_left hkq] at hk
      have hitjlt : itj.id < s1.nextId := (h.itemLt itj (mem_of_getElem? hj)).1
      have hitklt : itk.id < s1.nextId := (h.itemLt itk (mem_of_getElem? hk)).1
      rcases hfcases c hc with ⟨_, hfc⟩ | ⟨hceq, hfc⟩
      · rw [hfc] at hc'id hpj hpk
        exact h.queueOrd j k itj itk hjk hj hk hcid c hc hc'id ij ik hpj hpk
      · subst hceq
        rw [hfc] at hc'id hpj hpk
        rw [hupdid] at hc'id
        obtain ⟨hpj', _⟩ := hpair_bwd itj hitjlt ij hpj
        obtain ⟨hpk', _⟩ := hpair_bwd itk hitklt ik hpk
        exact h.queueOrd j k itj itk hjk hj hk hcid c hmem hc'id ij ik hpj' hpk'
    · have hkge : s1.queue.length ≤ k := Nat.le_of_not_lt hkq
      rw [List.getElem?_append_right hkge] at hk
      rcases hd : k - s1.queue.length with _ | d
      · rw [hd] at hk
        simp only [List.getElem?_cons_zero] at hk
        have hitk : itk = newItem := (Option.some_inj.mp hk).symm
        subst hitk
        have hjq : j < s1.queue.length := by omega
        rw [List.getElem?_append_left hjq] at hj
        have hitjlt : itj.id < s1.nextId := (h.itemLt itj (mem_of_getElem? hj)).1
        rcases hfcases c hc with ⟨hcne, hfc⟩ | ⟨hceq, hfc⟩
        · exfalso
          rw [hfc] at hc'id
          rw [hcid, hitemconv] at hc'id
          exact hcne hc'id
        · subst hceq
          rw [hfc] at hpj hpk
          obtain ⟨_, hlt⟩ := hpair_bwd itj hitjlt ij hpj
          have := hpair_new_unique ik hpk
          omega
      · exfalso
        rw [hd] at hk
        simp at hk
  · -- qSorted
    rw [hqueue, List.pairwise_append]
    refine ⟨h.qSorted, by simp, ?_⟩
    intro a ha b hb
    simp only [List.mem_singleton] at hb
    subst hb
    have := (h.itemLt a ha).1
    rw [hitemid]
    omega
  · -- genBound
    rw [hlog, hnext]
    intro g hg
    have := h.genBound g hg
    omega
  · -- genSorted
    rw [hlog]
    exact h.genSorted
  · -- genLe
    rw [hinf, hlog]
    exact h.genLe
  · -- genLtQueue
    rw [hinf, hlog, hqueue]
    intro hni g hg it hit
    rcases List.mem_append.mp hit with h1 | h2
    · exact h.genLtQueue hni g hg it h1
    · simp only [List.mem_singleton] at h2
      subst h2
      have := h.genBound g hg
      rw [hitemid]
      omega


theorem copyOk_send_core {s1 : ChatState} {conv updated : Conversation}
    (hmem : conv ∈ s1.conversations)
    (t : ChatState)
    (hconvs : t.conversations = s1.conversations.map
      (fun c => if c.id = conv.id then updated else c))
    (hcur : t.currentConversation = some updated) : CopyOk t := by
  intro c hc
  rw [hcur] at hc
  cases hc
  rw [hconvs]
  exact List.mem_map.mpr ⟨conv, hmem, by simp⟩

theorem inv_send {s : ChatState} (hI : Inv s) (content : String) :
    Inv (sendMessage content s) := by
  obtain ⟨h, hcopy⟩ := hI
  unfold sendMessage
  split
  · exact ⟨h, hcopy⟩
  · simp only
    split
    · rename_i conv heq
      constructor
      · exact invCore_send_core h (hcopy conv heq) rfl rfl rfl rfl _
          rfl rfl rfl rfl rfl rfl rfl rfl
      · exact copyOk_send_core (hcopy conv heq) _ rfl rfl
    · have h1 := invCore_prepend_fresh h [ECall.setCurrentId (some s.nextId)]
        (by simp [genIds])
      constructor
      · exact invCore_send_core h1 (List.mem_cons_self _ _) rfl rfl rfl rfl _
          rfl rfl rfl rfl rfl rfl rfl rfl
      · exact copyOk_send_core (List.mem_cons_self _ _) _ rfl rfl


/-! ### Invariant preservation: the queue processor -/

theorem inflight_none_of_not_processing {s : ChatState} (h : InvCore s)
    (hp : s.isProcessing = false) : s.inflight = none := by
  have hpf := h.procFlag
  rw [hp] at hpf
  cases hinf : s.inflight with
  | none => rfl
  | some inf =>
    rw [hinf] at hpf
    simp at hpf

theorem updateConvStatus_corr (conversationId messageId : Nat) (status : MessageStatus)
    (content? : Option String) (c : Conversation) :
    ∀ m' ∈ (updateConvStatus conversationId messageId status content? c).messages,
      ∃ m ∈ c.messages,
        (c.id = conversationId ∧ m' = updMsg messageId status content? m) ∨
        (c.id ≠ conversationId ∧ m' = m) := by
  intro m' hm'
  unfold updateConvStatus at hm'
  split at hm' <;> rename_i hcond
  · exact ⟨m', hm', Or.inr ⟨hcond, rfl⟩⟩
  · simp only [not_not] at hcond
    simp only at hm'
    obtain ⟨m, hm, rfl⟩ := List.mem_map.mp hm'
    exact ⟨m, hm, Or.inl ⟨hcond, rfl⟩⟩

theorem updMsg_id_eq (messageId : Nat) (status : MessageStatus) (content? : Option String)
    (m : Message) : (updMsg messageId status content? m).id = m.id := updMsg_id _ _ _ _

/-- Status updates keep item-to-pair relationships intact provided every
occurrence of the target message id is an assistant message. -/
theorem pairAt_updateConvStatus_iff (conversationId messageId : Nat)
    (status : MessageStatus) (content? : Option String) (c : Conversation)
    (hassist : ∀ m ∈ c.messages, m.id = messageId → m.role = Role.assistant)
    (it : QueueItem) (i : Nat) :
    pairAt (updateConvStatus conversationId messageId status content? c) it i ↔
      pairAt c it i := by
  unfold updateConvStatus
  split
  · exact Iff.rfl
  · unfold pairAt
    simp only [List.getElem?_map]
    constructor
    · rintro ⟨u', a', hu', ha', h1, h2, h3, h4⟩
      rcases hud : c.messages[i]? with _ | u
      · rw [hud] at hu'
        exact absurd hu' (by simp)
      · rcases had : c.messages[i + 1]? with _ | a
        · rw [had] at ha'
          exact absurd ha' (by simp)
        · rw [hud] at hu'
          rw [had] at ha'
          simp only [Option.map_some'] at hu' ha'
          have hu2 : u' = updMsg messageId status content? u := (Option.some_inj.mp hu').symm
          have ha2 : a' = updMsg messageId status content? a := (Option.some_inj.mp ha').symm
          have huu : u' = u := by
            by_cases hx : u.id = messageId
            · exfalso
              have hrole := hassist u (mem_of_getElem? hud) hx
              rw [hu2, updMsg_role, hrole] at h1
              exact absurd h1 (by simp)
            · rw [hu2, updMsg_status_of_ne hx]
          refine ⟨u, a, rfl, rfl, ?_, ?_, ?_, ?_⟩
          · rw [← huu]
            exact h1
          · rw [← huu]
            exact h2
          · rw [ha2, updMsg_role] at h3
            exact h3
          · rw [ha2, updMsg_id] at h4
            exact h4
    · rintro ⟨u, a, hu, ha, h1, h2, h3, h4⟩
      have hune : u.id ≠ messageId := by
        intro hx
        have hrole := hassist u (mem_of_getElem? hu) hx
        rw [hrole] at h1
        exact absurd h1 (by simp)
      refine ⟨u, updMsg messageId status content? a, ?_, ?_, h1, h2, ?_, ?_⟩
      · rw [hu]
        simp only [Option.map_some']
        rw [updMsg_status_of_ne hune]
      · rw [ha]
        simp only [Option.map_some']
      · rw [updMsg_role]
        exact h3
      · rw [updMsg_id]
        exact h4

theorem copyOk_map_both {s : ChatState} (hcopy : CopyOk s) (f : Conversation → Conversation)
    (t : ChatState) (hconvs : t.conversations = s.conversations.map f)
    (hcur : t.currentConversation = s.currentConversation.map f) : CopyOk t := by
  intro c hc
  rw [hcur] at hc
  rcases hx : s.currentConversation with _ | c0
  · rw [hx] at hc
    exact absurd hc (by simp)
  · rw [hx] at hc
    simp only [Option.map] at hc
    cases hc
    rw [hconvs]
    exact List.mem_map_of_mem _ (hcopy c0 hx)

/-- Dropping the head of the queue when nothing is in flight. -/
theorem invCore_tail {s : ChatState} (h : InvCore s) {item : QueueItem}
    {rest : List QueueItem} (hq : s.queue = item :: rest) (hni : s.inflight = none)
    (t : ChatState)
    (hconvs : t.conversations = s.conversations)
    (hqueue : t.queue = rest)
    (hinf : t.inflight = none)
    (hgen : t.isGenerating = s.isGenerating) (hproc : t.isProcessing = s.isProcessing)
    (heng : t.engineGeneratingConvId = s.engineGeneratingConvId)
    (hnext : t.nextId = s.nextId)
    (hlog : genIds t.log = genIds s.log) : InvCore t := by
  have hsub : ∀ it ∈ rest, it ∈ s.queue := by
    intro it hit
    rw [hq]
    exact List.mem_cons_of_mem _ hit
  refine ⟨?_, ?_, ?_, ?_, ?_, ?_, ?_, ?_, ?_, ?_, ?_, ?_, ?_, ?_, ?_, ?_, ?_, ?_, ?_, ?_, ?_⟩
  · rw [hconvs, hnext]; exact h.convIdLt
  · rw [hconvs, hnext]; exact h.msgIdLt
  · rw [hqueue, hnext]
    intro it hit
    exact h.itemLt it (hsub it hit)
  · rw [hconvs]; exact h.convNodup
  · rw [hconvs]; exact h.msgNodupIn
  · rw [hconvs]; exact h.msgDisjoint
  · rw [hgen, hinf]
    have := h.genFlag
    rw [hni] at this
    exact this
  · rw [hproc, hinf]
    have := h.procFlag
    rw [hni] at this
    exact this
  · rw [heng, hinf]
    have := h.engineEq
    rw [hni] at this
    exact this
  · rw [hconvs, hinf]
    intro c hc m hm hst
    obtain ⟨inf, hif, _⟩ := h.genOnly c hc m hm hst
    rw [hni] at hif
    exact absurd hif (by simp)
  · intro inf hif
    rw [hinf] at hif
    exact absurd hif (by simp)
  · intro inf hif
    rw [hinf] at hif
    exact absurd hif (by simp)
  · rw [hqueue, hconvs]
    intro it hit
    exact h.queueOwner it (hsub it hit)
  · rw [hqueue, hconvs]
    intro it hit
    exact h.queuePairs it (hsub it hit)
  · rw [hqueue, hconvs]
    intro it hit _ c hc m hm hmid
    refine h.queuedSt it (hsub it hit) ?_ c hc m hm hmid
    intro inf hif
    rw [hni] at hif
    exact absurd hif (by simp)
  · rw [hqueue, hconvs]
    intro j k itj itk hjk hj hk
    have hj' : s.queue[j + 1]? = some itj := by
      rw [hq, List.getElem?_cons_succ]
      exact hj
    have hk' : s.queue[k + 1]? = some itk := by
      rw [hq, List.getElem?_cons_succ]
      exact hk
    exact h.queueOrd (j + 1) (k + 1) itj itk (by omega) hj' hk'
  · rw [hqueue]
    have := h.qSorted
    rw [hq] at this
    exact (List.pairwise_cons.mp this).2
  · rw [hlog, hnext]; exact h.genBound
  · rw [hlog]; exact h.genSorted
  · intro inf hif
    rw [hinf] at hif
    exact absurd hif (by simp)
  · intro _ g hg it hit
    rw [hlog] at hg
    rw [hqueue] at hit
    exact h.genLtQueue hni g hg it (hsub it hit)


/-- The queue processor's positional lookup always lands on the pair of the
first user message whose content matches the item (which exists whenever the
conversation exists). -/
theorem drain_locate {s : ChatState} {item : QueueItem} {rest : List QueueItem}
    {conversation : Conversation} {assistantMsg : Message}
    (h : InvCore s) (hq : s.queue = item :: rest)
    (hfind : s.conversations.find?
      (fun c : Conversation => c.id = item.conversationId) = some conversation)
    (hloc : locateAssistant conversation item = some assistantMsg) :
    ∃ i0 : Nat,
      jsFindIndex (fun m => decide (m.role = Role.user ∧ m.content = item.content))
        conversation.messages = some i0 ∧
      conversation.messages[i0 + 1]? = some assistantMsg ∧
      (∀ ih : Nat, pairAt conversation item ih → i0 ≤ ih) := by
  have hcid : conversation.id = item.conversationId := by
    simpa using List.find?_some hfind
  have hcmem : conversation ∈ s.conversations := List.mem_of_find?_eq_some hfind
  have hitemmem : item ∈ s.queue := by
    rw [hq]
    exact List.mem_cons_self _ _
  obtain ⟨ih, hp⟩ := h.queuePairs item hitemmem conversation hcmem hcid
  obtain ⟨u, a, hu, ha, h1, h2, h3, h4⟩ := hp
  obtain ⟨i0, hfidx, hle⟩ := jsFindIndex_first
    (p := fun m => decide (m.role = Role.user ∧ m.content = item.content)) hu
    (by simp [h1, h2])
  refine ⟨i0, hfidx, ?_, ?_⟩
  · unfold locateAssistant at hloc
    rw [hfidx] at hloc
    exact hloc
  · intro ih' hp'
    obtain ⟨u', a', hu', ha', h1', h2', _, _⟩ := hp'
    obtain ⟨i2, hf2, hle2⟩ := jsFindIndex_first
      (p := fun m => decide (m.role = Role.user ∧ m.content = item.content)) hu'
      (by simp [h1', h2'])
    have : i2 = i0 := Option.some_inj.mp (hf2.symm.trans hfidx)
    omega

/-- While draining, no other queued item's target id coincides with the
assistant message the processor located for the head item. -/
theorem drain_fresh {s : ChatState} {item : QueueItem} {rest : List QueueItem}
    {conversation : Conversation} {assistantMsg : Message}
    (h : InvCore s) (hq : s.queue = item :: rest)
    (hfind : s.conversations.find?
      (fun c : Conversation => c.id = item.conversationId) = some conversation)
    (hloc : locateAssistant conversation item = some assistantMsg) :
    ∀ itk ∈ rest, itk.id ≠ assistantMsg.id := by
  have hcid : conversation.id = item.conversationId := by
    simpa using List.find?_some hfind
  have hcmem : conversation ∈ s.conversations := List.mem_of_find?_eq_some hfind
  obtain ⟨i0, hfidx, hpos, hmin⟩ := drain_locate h hq hfind hloc
  intro itk hk hcontra
  have hamem : assistantMsg ∈ conversation.messages := mem_of_getElem? hpos
  have hitkmem : itk ∈ s.queue := by
    rw [hq]
    exact List.mem_cons_of_mem _ hk
  obtain ⟨hckid, _⟩ :=
    h.queueOwner itk hitkmem conversation hcmem assistantMsg hamem hcontra.symm
  obtain ⟨ik, hpk⟩ := h.queuePairs itk hitkmem conversation hcmem hckid
  obtain ⟨uk, ak, huk, hak, hk1, hk2, hk3, hk4⟩ := hpk
  have hpos_eq : ik + 1 = i0 + 1 := by
    have hnd := h.msgNodupIn conversation hcmem
    exact nodup_map_idx_unique (f := fun m : Message => m.id) hnd hak hpos
      (by show ak.id = assistantMsg.id; rw [hk4, hcontra])
  have hitemmem : item ∈ s.queue := by
    rw [hq]
    exact List.mem_cons_self _ _
  obtain ⟨ihd, hphd⟩ := h.queuePairs item hitemmem conversation hcmem hcid
  have hle : i0 ≤ ihd := hmin ihd hphd
  obtain ⟨jk, hjk⟩ := List.mem_iff_getElem?.mp hk
  have hq0 : s.queue[0]? = some item := by
    rw [hq]
    simp
  have hqk : s.queue[jk + 1]? = some itk := by
    rw [hq, List.getElem?_cons_succ]
    exact hjk
  have hord := h.queueOrd 0 (jk + 1) item itk (by omega) hq0 hqk
    (by rw [← hcid]; exact hckid) conversation hcmem hcid ihd ik hphd
    ⟨uk, ak, huk, hak, hk1, hk2, hk3, hk4⟩
  omega


theorem invCore_drain_core {s : ChatState} {item : QueueItem} {rest : List QueueItem}
    {conversation : Conversation} {assistantMsg : Message}
    (h : InvCore s)
    (hq : s.queue = item :: rest)
    (hproc : s.isProcessing = false)
    (hfind : s.conversations.find?
      (fun c : Conversation => c.id = item.conversationId) = some conversation)
    (hloc : locateAssistant conversation item = some assistantMsg)
    (hrole : assistantMsg.role = Role.assistant)
    (t : ChatState)
    (hconvs : t.conversations = s.conversations.map
      (updateConvStatus item.conversationId assistantMsg.id MessageStatus.generating none))
    (hqueue : t.queue = s.queue)
    (hinf : t.inflight = some { item := item, msgId := assistantMsg.id })
    (hgen : t.isGenerating = true) (hproc' : t.isProcessing = true)
    (heng : t.engineGeneratingConvId = some item.conversationId)
    (hnext : t.nextId = s.nextId)
    (hlog : genIds t.log = genIds s.log ++ [item.id]) :
    InvCore t := by
  have hni : s.inflight = none := inflight_none_of_not_processing h hproc
  have hcid : conversation.id = item.conversationId := by
    simpa using List.find?_some hfind
  have hcmem : conversation ∈ s.conversations := List.mem_of_find?_eq_some hfind
  obtain ⟨i0, hfidx, hpos, hmin⟩ := drain_locate h hq hfind hloc
  have hamem : assistantMsg ∈ conversation.messages := mem_of_getElem? hpos
  have haidlt : assistantMsg.id < s.nextId :=
    h.msgIdLt conversation hcmem assistantMsg hamem
  have hfresh : ∀ itk ∈ rest, itk.id ≠ assistantMsg.id := drain_fresh h hq hfind hloc
  have hitemmem : item ∈ s.queue := by
    rw [hq]
    exact List.mem_cons_self _ _
  have hitemlt : item.id < s.nextId := (h.itemLt item hitemmem).1
  have hocc_unique : ∀ c ∈ s.conversations, ∀ m ∈ c.messages,
      m.id = assistantMsg.id → c = conversation ∧ m = assistantMsg := by
    intro c hc m hm hmid
    by_cases hceq : c = conversation
    · subst hceq
      refine ⟨rfl, ?_⟩
      obtain ⟨j, hj⟩ := List.mem_iff_getElem?.mp hm
      have hje := nodup_map_idx_unique (f := fun m : Message => m.id)
        (h.msgNodupIn c hc) hj hpos (by show m.id = assistantMsg.id; exact hmid)
      subst hje
      exact Option.some_inj.mp (hj.symm.trans hpos)
    · exfalso
      have hsym : Symmetric (fun a b : Conversation =>
          ∀ x ∈ convMsgIds a, x ∉ convMsgIds b) := by
        intro a b hab x hxb hxa
        exact hab x hxa hxb
      have hdisj := List.Pairwise.forall hsym h.msgDisjoint hc hcmem hceq
      have hmidmem : m.id ∈ convMsgIds c := by
        unfold convMsgIds
        exact List.mem_map_of_mem _ hm
      have hamidmem : m.id ∈ convMsgIds conversation := by
        unfold convMsgIds
        rw [hmid]
        exact List.mem_map_of_mem _ hamem
      exact hdisj m.id hmidmem hamidmem
  have hassist : ∀ c ∈ s.conversations, ∀ m ∈ c.messages,
      m.id = assistantMsg.id → m.role = Role.assistant := by
    intro c hc m hm hmid
    obtain ⟨_, hmm⟩ := hocc_unique c hc m hm hmid
    rw [hmm]
    exact hrole
  have hcorr := fun (c : Conversation) =>
    updateConvStatus_corr item.conversationId assistantMsg.id
      MessageStatus.generating none c
  refine ⟨?_, ?_, ?_, ?_, ?_, ?_, ?_, ?_, ?_, ?_, ?_, ?_, ?_, ?_, ?_, ?_, ?_, ?_, ?_, ?_, ?_⟩
  · -- convIdLt
    rw [hconvs, hnext]
    intro c' hc'
    obtain ⟨c, hc, rfl⟩ := List.mem_map.mp hc'
    rw [updateConvStatus_id]
    exact h.convIdLt c hc
  · -- msgIdLt
    rw [hconvs, hnext]
    intro c' hc' m' hm'
    obtain ⟨c, hc, rfl⟩ := List.mem_map.mp hc'
    obtain ⟨m, hm, hcase⟩ := hcorr c m' hm'
    rcases hcase with ⟨_, hmeq⟩ | ⟨_, hmeq⟩
    · rw [hmeq, updMsg_id]
      exact h.msgIdLt c hc m hm
    · rw [hmeq]
      exact h.msgIdLt c hc m hm
  · -- itemLt
    rw [hqueue, hnext]
    exact h.itemLt
  · -- convNodup
    rw [hconvs, List.pairwise_map]
    exact List.Pairwise.imp_of_mem
      (fun ha hb hR => by
        rw [updateConvStatus_id, updateConvStatus_id]
        exact hR) h.convNodup
  · -- msgNodupIn
    rw [hconvs]
    intro c' hc'
    obtain ⟨c, hc, rfl⟩ := List.mem_map.mp hc'
    unfold convMsgIds
    rw [updateConvStatus_map_id]
    exact h.msgNodupIn c hc
  · -- msgDisjoint
    rw [hconvs, List.pairwise_map]
    exact List.Pairwise.imp_of_mem
      (fun ha hb hR => by
        intro x hx
        unfold convMsgIds at hx ⊢
        rw [updateConvStatus_map_id] at hx ⊢
        exact hR x hx) h.msgDisjoint
  · -- genFlag
    rw [hgen, hinf]
    rfl
  · -- procFlag
    rw [hproc', hinf]
    rfl
  · -- engineEq
    rw [heng, hinf]
    rfl
  · -- genOnly
    rw [hconvs, hinf]
    intro c' hc' m' hm' hst
    obtain ⟨c, hc, rfl⟩ := List.mem_map.mp hc'
    obtain ⟨m, hm, hcase⟩ := hcorr c m' hm'
    rcases hcase with ⟨hceq, hmeq⟩ | ⟨_, hmeq⟩
    · by_cases hx : m.id = assistantMsg.id
      · refine ⟨{ item := item, msgId := assistantMsg.id }, rfl, ?_, ?_⟩
        · rw [hmeq, updMsg_id, hx]
        · rw [updateConvStatus_id, hceq]
      · exfalso
        rw [hmeq, updMsg_status_of_ne hx] at hst
        obtain ⟨inf, hif, _⟩ := h.genOnly c hc m hm hst
        rw [hni] at hif
        exact Option.noConfusion hif
    · exfalso
      rw [hmeq] at hst
      obtain ⟨inf, hif, _⟩ := h.genOnly c hc m hm hst
      rw [hni] at hif
      exact Option.noConfusion hif
  · -- inflightMsg
    rw [hinf, hnext, hqueue, hconvs]
    intro inf hif
    have hinfeq : inf = { item := item, msgId := assistantMsg.id } :=
      (Option.some_inj.mp hif).symm
    subst hinfeq
    refine ⟨haidlt, ?_, ?_⟩
    · intro it hit
      rw [hq] at hit
      simp only [List.drop_succ_cons, List.drop_zero] at hit
      exact hfresh it hit
    · intro c' hc' m' hm' hmid
      obtain ⟨c, hc, rfl⟩ := List.mem_map.mp hc'
      obtain ⟨m, hm, hcase⟩ := hcorr c m' hm'
      rcases hcase with ⟨hceq, hmeq⟩ | ⟨hcne, hmeq⟩
      · rw [hmeq, updMsg_id] at hmid
        refine ⟨by rw [updateConvStatus_id, hceq], ?_, ?_⟩
        · rw [hmeq, updMsg_role]
          obtain ⟨_, hmm⟩ := hocc_unique c hc m hm hmid
          rw [hmm]
          exact hrole
        · rw [hmeq]
          unfold updMsg
          rw [if_pos hmid]
      · exfalso
        rw [hmeq] at hmid
        obtain ⟨hcc, _⟩ := hocc_unique c hc m hm hmid
        subst hcc
        exact hcne hcid
  · -- inflightHead
    rw [hinf, hqueue, hq]
    intro inf hif
    have hinfeq : inf = { item := item, msgId := assistantMsg.id } :=
      (Option.some_inj.mp hif).symm
    subst hinfeq
    rfl
  · -- queueOwner
    rw [hqueue, hconvs]
    intro it hit c' hc' m' hm' hmid
    obtain ⟨c, hc, rfl⟩ := List.mem_map.mp hc'
    obtain ⟨m, hm, hcase⟩ := hcorr c m' hm'
    rcases hcase with ⟨_, hmeq⟩ | ⟨_, hmeq⟩
    · rw [hmeq, updMsg_id] at hmid
      obtain ⟨ha, hb⟩ := h.queueOwner it hit c hc m hm hmid
      exact ⟨by rw [updateConvStatus_id]; exact ha,
        by rw [hmeq, updMsg_role]; exact hb⟩
    · rw [hmeq] at hmid
      obtain ⟨ha, hb⟩ := h.queueOwner it hit c hc m hm hmid
      exact ⟨by rw [updateConvStatus_id]; exact ha, by rw [hmeq]; exact hb⟩
  · -- queuePairs
    rw [hqueue, hconvs]
    intro it hit c' hc' hcid'
    obtain ⟨c, hc, rfl⟩ := List.mem_map.mp hc'
    rw [updateConvStatus_id] at hcid'
    obtain ⟨i, hp⟩ := h.queuePairs it hit c hc hcid'
    exact ⟨i, (pairAt_updateConvStatus_iff _ _ _ _ c (hassist c hc) it i).mpr hp⟩
  · -- queuedSt
    rw [hqueue, hinf, hconvs]
    intro it hit hguard c' hc' m' hm' hmid
    have hitne : it.id ≠ item.id :=
      hguard { item := item, msgId := assistantMsg.id } rfl
    have hitrest : it ∈ rest := by
      rw [hq] at hit
      rcases List.mem_cons.mp hit with heq2 | hmem2
      · exfalso
        rw [heq2] at hitne
        exact hitne rfl
      · exact hmem2
    have hitna : it.id ≠ assistantMsg.id := hfresh it hitrest
    obtain ⟨c, hc, rfl⟩ := List.mem_map.mp hc'
    obtain ⟨m, hm, hcase⟩ := hcorr c m' hm'
    have hitmem : it ∈ s.queue := by
      rw [hq]
      exact List.mem_cons_of_mem _ hitrest
    have hguard0 : ∀ inf, s.inflight = some inf → it.id ≠ inf.item.id := by
      intro inf hif
      rw [hni] at hif
      exact Option.noConfusion hif
    rcases hcase with ⟨_, hmeq⟩ | ⟨_, hmeq⟩
    · rw [hmeq, updMsg_id] at hmid
      have hmna : m.id ≠ assistantMsg.id := by
        rw [hmid]
        exact hitna
      rw [hmeq, updMsg_status_of_ne hmna]
      exact h.queuedSt it hitmem hguard0 c hc m hm hmid
    · rw [hmeq] at hmid ⊢
      exact h.queuedSt it hitmem hguard0 c hc m hm hmid
  · -- queueOrd
    rw [hqueue, hconvs]
    intro j k itj itk hjk hj hk hcidjk c' hc' hc'id ij ik hpj hpk
    obtain ⟨c, hc, rfl⟩ := List.mem_map.mp hc'
    rw [updateConvStatus_id] at hc'id
    exact h.queueOrd j k itj itk hjk hj hk hcidjk c hc hc'id ij ik
      ((pairAt_updateConvStatus_iff _ _ _ _ c (hassist c hc) itj ij).mp hpj)
      ((pairAt_updateConvStatus_iff _ _ _ _ c (hassist c hc) itk ik).mp hpk)
  · -- qSorted
    rw [hqueue]
    exact h.qSorted
  · -- genBound
    rw [hlog, hnext]
    intro g hg
    rcases List.mem_append.mp hg with h1 | h2
    · exact h.genBound g h1
    · simp only [List.mem_singleton] at h2
      subst h2
      exact hitemlt
  · -- genSorted
    rw [hlog, List.pairwise_append]
    refine ⟨h.genSorted, by simp, ?_⟩
    intro g hg b hb
    simp only [List.mem_singleton] at hb
    subst hb
    exact h.genLtQueue hni g hg item hitemmem
  · -- genLe
    rw [hinf, hlog]
    intro inf hif
    have hinfeq : inf = { item := item, msgId := assistantMsg.id } :=
      (Option.some_inj.mp hif).symm
    subst hinfeq
    intro g hg
    rcases List.mem_append.mp hg with h1 | h2
    · exact Nat.le_of_lt (h.genLtQueue hni g h1 item hitemmem)
    · simp only [List.mem_singleton] at h2
      subst h2
      exact Nat.le_refl _
  · -- genLtQueue
    rw [hinf]
    intro hcontra
    exact absurd hcontra (by simp)


theorem inv_drain {s : ChatState} (hI : Inv s) : Inv (processQueueStart s) := by
  obtain ⟨h, hcopy⟩ := hI
  unfold processQueueStart
  split
  · exact ⟨h, hcopy⟩
  · exact ⟨h, hcopy⟩
  · rename_i item rest hq2 hp2
    split
    · refine ⟨invCore_tail h hq2 (inflight_none_of_not_processing h hp2) _
        rfl rfl ?_ rfl rfl rfl rfl rfl, hcopy⟩
      show s.inflight = none
      exact inflight_none_of_not_processing h hp2
    · rename_i conversation hfind
      split
      · refine ⟨invCore_tail h hq2 (inflight_none_of_not_processing h hp2) _
          rfl rfl ?_ rfl rfl rfl rfl rfl, hcopy⟩
        show s.inflight = none
        exact inflight_none_of_not_processing h hp2
      · rename_i assistantMsg hloc
        split
        · refine ⟨invCore_tail h hq2 (inflight_none_of_not_processing h hp2) _
            rfl rfl ?_ rfl rfl rfl rfl rfl, hcopy⟩
          show s.inflight = none
          exact inflight_none_of_not_processing h hp2
        · rename_i hndrole
          have hrole : assistantMsg.role = Role.assistant := not_not.mp hndrole
          constructor
          · exact invCore_drain_core h hq2 hp2 hfind hloc hrole _
              rfl rfl rfl rfl rfl rfl rfl
              (by simp [updateMessageStatus, genIds_append, genIds])
          · exact copyOk_map_both hcopy _ _ rfl rfl

/-! ### Invariant preservation: settlement -/

theorem invCore_settle_core {s : ChatState} {inf : Inflight} (h : InvCore s)
    (hif : s.inflight = some inf) (fst : MessageStatus)
    (hfst : fst ≠ MessageStatus.generating) (fcontent : Option String)
    (t : ChatState)
    (hconvs : t.conversations = s.conversations.map
      (updateConvStatus inf.item.conversationId inf.msgId fst fcontent))
    (hqueue : t.queue = s.queue.drop 1)
    (hinf : t.inflight = none)
    (hgen : t.isGenerating = false) (hproc : t.isProcessing = false)
    (heng : t.engineGeneratingConvId = none)
    (hnext : t.nextId = s.nextId)
    (hlog : genIds t.log = genIds s.log) : InvCore t := by
  obtain ⟨haidlt, hdrop, hocc⟩ := h.inflightMsg inf hif
  have hhead := h.inflightHead inf hif
  have hcorr := fun (c : Conversation) =>
    updateConvStatus_corr inf.item.conversationId inf.msgId fst fcontent c
  have hassist : ∀ c ∈ s.conversations, ∀ m ∈ c.messages,
      m.id = inf.msgId → m.role = Role.assistant := by
    intro c hc m hm hmid
    exact (hocc c hc m hm hmid).2.1
  have hqcons : ∃ tl, s.queue = inf.item :: tl := by
    cases hq : s.queue with
    | nil =>
      rw [hq] at hhead
      exact absurd hhead (by simp)
    | cons a tl =>
      rw [hq] at hhead
      simp only [List.head?_cons] at hhead
      exact ⟨tl, by rw [Option.some_inj.mp hhead]⟩
  obtain ⟨tl, hq⟩ := hqcons
  have hdrop1 : s.queue.drop 1 = tl := by
    rw [hq]
    rfl
  have htl_gt : ∀ it ∈ tl, inf.item.id < it.id := by
    intro it hit
    have := h.qSorted
    rw [hq] at this
    exact (List.pairwise_cons.mp this).1 it hit
  refine ⟨?_, ?_, ?_, ?_, ?_, ?_, ?_, ?_, ?_, ?_, ?_, ?_, ?_, ?_, ?_, ?_, ?_, ?_, ?_, ?_, ?_⟩
  · -- convIdLt
    rw [hconvs, hnext]
    intro c' hc'
    obtain ⟨c, hc, rfl⟩ := List.mem_map.mp hc'
    rw [updateConvStatus_id]
    exact h.convIdLt c hc
  · -- msgIdLt
    rw [hconvs, hnext]
    intro c' hc' m' hm'
    obtain ⟨c, hc, rfl⟩ := List.mem_map.mp hc'
    obtain ⟨m, hm, hcase⟩ := hcorr c m' hm'
    rcases hcase with ⟨_, hmeq⟩ | ⟨_, hmeq⟩
    · rw [hmeq, updMsg_id]
      exact h.msgIdLt c hc m hm
    · rw [hmeq]
      exact h.msgIdLt c hc m hm
  · -- itemLt
    rw [hqueue, hnext]
    intro it hit
    exact h.itemLt it (List.mem_of_mem_drop hit)
  · -- convNodup
    rw [hconvs, List.pairwise_map]
    exact List.Pairwise.imp_of_mem
      (fun ha hb hR => by
        rw [updateConvStatus_id, updateConvStatus_id]
        exact hR) h.convNodup
  · -- msgNodupIn
    rw [hconvs]
    intro c' hc'
    obtain ⟨c, hc, rfl⟩ := List.mem_map.mp hc'
    unfold convMsgIds
    rw [updateConvStatus_map_id]
    exact h.msgNodupIn c hc
  · -- msgDisjoint
    rw [hconvs, List.pairwise_map]
    exact List.Pairwise.imp_of_mem
      (fun ha hb hR => by
        intro x hx
        unfold convMsgIds at hx ⊢
        rw [updateConvStatus_map_id] at hx ⊢
        exact hR x hx) h.msgDisjoint
  · -- genFlag
    rw [hgen, hinf]
    rfl
  · -- procFlag
    rw [hproc, hinf]
    rfl
  · -- engineEq
    rw [heng, hinf]
    rfl
  · -- genOnly
    rw [hconvs, hinf]
    intro c' hc' m' hm' hst
    obtain ⟨c, hc, rfl⟩ := List.mem_map.mp hc'
    obtain ⟨m, hm, hcase⟩ := hcorr c m' hm'
    exfalso
    rcases hcase with ⟨_, hmeq⟩ | ⟨hcne, hmeq⟩
    · by_cases hx : m.id = inf.msgId
      · rw [hmeq] at hst
        unfold updMsg at hst
        rw [if_pos hx] at hst
        simp only at hst
        exact hfst (Option.some_inj.mp hst)
      · rw [hmeq, updMsg_status_of_ne hx] at hst
        obtain ⟨inf2, hif2, hmid2, _⟩ := h.genOnly c hc m hm hst
        rw [hif] at hif2
        have hieq : inf2 = inf := (Option.some_inj.mp hif2).symm
        subst hieq
        exact hx hmid2
    · rw [hmeq] at hst
      obtain ⟨inf2, hif2, _, hcid2⟩ := h.genOnly c hc m hm hst
      rw [hif] at hif2
      have hieq : inf2 = inf := (Option.some_inj.mp hif2).symm
      subst hieq
      exact hcne hcid2
  · -- inflightMsg
    intro inf2 hif2
    rw [hinf] at hif2
    exact absurd hif2 (by simp)
  · -- inflightHead
    intro inf2 hif2
    rw [hinf] at hif2
    exact absurd hif2 (by simp)
  · -- queueOwner
    rw [hqueue, hconvs]
    intro it hit c' hc' m' hm' hmid
    obtain ⟨c, hc, rfl⟩ := List.mem_map.mp hc'
    obtain ⟨m, hm, hcase⟩ := hcorr c m' hm'
    rcases hcase with ⟨_, hmeq⟩ | ⟨_, hmeq⟩
    · rw [hmeq, updMsg_id] at hmid
      obtain ⟨ha, hb⟩ := h.queueOwner it (List.mem_of_mem_drop hit) c hc m hm hmid
      exact ⟨by rw [updateConvStatus_id]; exact ha,
        by rw [hmeq, updMsg_role]; exact hb⟩
    · rw [hmeq] at hmid
      obtain ⟨ha, hb⟩ := h.queueOwner it (List.mem_of_mem_drop hit) c hc m hm hmid
      exact ⟨by rw [updateConvStatus_id]; exact ha, by rw [hmeq]; exact hb⟩
  · -- queuePairs
    rw [hqueue, hconvs]
    intro it hit c' hc' hcid'
    obtain ⟨c, hc, rfl⟩ := List.mem_map.mp hc'
    rw [updateConvStatus_id] at hcid'
    obtain ⟨i, hp⟩ := h.queuePairs it (List.mem_of_mem_drop hit) c hc hcid'
    exact ⟨i, (pairAt_updateConvStatus_iff _ _ _ _ c (hassist c hc) it i).mpr hp⟩
  · -- queuedSt
    rw [hqueue, hconvs]
    intro it hit _ c' hc' m' hm' hmid
    rw [hdrop1] at hit
    have hitmem : it ∈ s.queue := by
      rw [hq]
      exact List.mem_cons_of_mem _ hit
    have hitne : it.id ≠ inf.item.id := by
      have := htl_gt it hit
      omega
    have hguard0 : ∀ inf2, s.inflight = some inf2 → it.id ≠ inf2.item.id := by
      intro inf2 hif2
      rw [hif] at hif2
      have : inf2 = inf := (Option.some_inj.mp hif2).symm
      subst this
      exact hitne
    have hitna : it.id ≠ inf.msgId := by
      apply hdrop
      rw [hdrop1]
      exact hit
    obtain ⟨c, hc, rfl⟩ := List.mem_map.mp hc'
    obtain ⟨m, hm, hcase⟩ := hcorr c m' hm'
    rcases hcase with ⟨_, hmeq⟩ | ⟨_, hmeq⟩
    · rw [hmeq, updMsg_id] at hmid
      have hmna : m.id ≠ inf.msgId := by
        rw [hmid]
        exact hitna
      rw [hmeq, updMsg_status_of_ne hmna]
      exact h.queuedSt it hitmem hguard0 c hc m hm hmid
    · rw [hmeq] at hmid ⊢
      exact h.queuedSt it hitmem hguard0 c hc m hm hmid
  · -- queueOrd
    rw [hqueue, hconvs]
    intro j k itj itk hjk hj hk hcidjk c' hc' hc'id ij ik hpj hpk
    obtain ⟨c, hc, rfl⟩ := List.mem_map.mp hc'
    rw [updateConvStatus_id] at hc'id
    rw [List.getElem?_drop] at hj hk
    exact h.queueOrd (1 + j) (1 + k) itj itk (by omega) hj hk hcidjk c hc hc'id ij ik
      ((pairAt_updateConvStatus_iff _ _ _ _ c (hassist c hc) itj ij).mp hpj)
      ((pairAt_updateConvStatus_iff _ _ _ _ c (hassist c hc) itk ik).mp hpk)
  · -- qSorted
    rw [hqueue]
    exact h.qSorted.sublist (List.drop_sublist 1 s.queue)
  · -- genBound
    rw [hlog, hnext]
    exact h.genBound
  · -- genSorted
    rw [hlog]
    exact h.genSorted
  · -- genLe
    intro inf2 hif2
    rw [hinf] at hif2
    exact absurd hif2 (by simp)
  · -- genLtQueue
    intro _ g hg it hit
    rw [hlog] at hg
    rw [hqueue, hdrop1] at hit
    have h1 : g ≤ inf.item.id := h.genLe inf hif g hg
    have h2 : inf.item.id < it.id := htl_gt it hit
    omega


theorem genIds_saveOpt (o : Option Conversation) :
    genIds (match o with | some c => [ECall.saveConv c.id] | none => []) = [] := by
  cases o <;> simp [genIds]

theorem inv_settle {s : ChatState} (hI : Inv s) (r : GenOutcome) :
    Inv (settleGeneration r s) := by
  obtain ⟨h, hcopy⟩ := hI
  unfold settleGeneration
  split
  · exact ⟨h, hcopy⟩
  · rename_i inf hif
    simp only
    split
    · -- promise resolved
      constructor
      · exact invCore_settle_core h hif _ (by split <;> simp) _ _
          rfl rfl rfl rfl rfl rfl rfl
          (by simp [updateMessageStatus, genIds_append, genIds_saveOpt])
      · exact copyOk_map_both hcopy _ _ rfl rfl
    · -- the await threw
      constructor
      · exact invCore_settle_core h hif _ (by simp) _ _
          rfl rfl rfl rfl rfl rfl rfl
          (by simp [updateMessageStatus, genIds_append, genIds])
      · exact copyOk_map_both hcopy _ _ rfl rfl

/-! ### Invariant preservation: deleteConversation -/

theorem invCore_filter {s : ChatState} (h : InvCore s) (pid : Nat)
    (t : ChatState)
    (hconvs : t.conversations = s.conversations.filter
      (fun c : Conversation => c.id ≠ pid))
    (hqueue : t.queue = s.queue) (hinf : t.inflight = s.inflight)
    (hgen : t.isGenerating = s.isGenerating) (hproc : t.isProcessing = s.isProcessing)
    (heng : t.engineGeneratingConvId = s.engineGeneratingConvId)
    (hnext : t.nextId = s.nextId)
    (hlog : genIds t.log = genIds s.log) : InvCore t := by
  have hsub : ∀ c ∈ s.conversations.filter (fun c : Conversation => c.id ≠ pid),
      c ∈ s.conversations := by
    intro c hc
    exact (List.mem_filter.mp hc).1
  refine ⟨?_, ?_, ?_, ?_, ?_, ?_, ?_, ?_, ?_, ?_, ?_, ?_, ?_, ?_, ?_, ?_, ?_, ?_, ?_, ?_, ?_⟩
  · rw [hconvs, hnext]
    intro c hc
    exact h.convIdLt c (hsub c hc)
  · rw [hconvs, hnext]
    intro c hc
    exact h.msgIdLt c (hsub c hc)
  · rw [hqueue, hnext]
    exact h.itemLt
  · rw [hconvs]
    exact h.convNodup.sublist (List.filter_sublist s.conversations)
  · rw [hconvs]
    intro c hc
    exact h.msgNodupIn c (hsub c hc)
  · rw [hconvs]
    exact h.msgDisjoint.sublist (List.filter_sublist s.conversations)
  · rw [hgen, hinf]
    exact h.genFlag
  · rw [hproc, hinf]
    exact h.procFlag
  · rw [heng, hinf]
    exact h.engineEq
  · rw [hconvs, hinf]
    intro c hc m hm hst
    exact h.genOnly c (hsub c hc) m hm hst
  · rw [hinf, hnext, hqueue, hconvs]
    intro inf hif
    obtain ⟨h1, h2, h3⟩ := h.inflightMsg inf hif
    exact ⟨h1, h2, fun c hc => h3 c (hsub c hc)⟩
  · rw [hinf, hqueue]
    exact h.inflightHead
  · rw [hqueue, hconvs]
    intro it hit c hc
    exact h.queueOwner it hit c (hsub c hc)
  · rw [hqueue, hconvs]
    intro it hit c hc
    exact h.queuePairs it hit c (hsub c hc)
  · rw [hqueue, hinf, hconvs]
    intro it hit hni c hc
    exact h.queuedSt it hit hni c (hsub c hc)
  · rw [hqueue, hconvs]
    intro j k itj itk hjk hj hk hcid c hc
    exact h.queueOrd j k itj itk hjk hj hk hcid c (hsub c hc)
  · rw [hqueue]
    exact h.qSorted
  · rw [hlog, hnext]
    exact h.genBound
  · rw [hlog]
    exact h.genSorted
  · rw [hinf, hlog]
    exact h.genLe
  · rw [hinf, hlog, hqueue]
    exact h.genLtQueue

theorem inv_delete {s : ChatState} (hI : Inv s) (id : Nat) :
    Inv (deleteConversation id s) := by
  obtain ⟨h, hcopy⟩ := hI
  unfold deleteConversation
  simp only
  have hfC : InvCore { s with conversations := s.conversations.filter (fun c : Conversation => c.id ≠ id) } :=
    invCore_filter h id _ rfl rfl rfl rfl rfl rfl rfl rfl
  split <;> rename_i hcur
  · split <;> rename_i hflt
    · -- a conversation remains: select it
      rename_i c0 tl0
      constructor
      · exact invCore_select hfC c0.id
      · have hc0mem : c0 ∈ s.conversations.filter
            (fun c : Conversation => c.id ≠ id) := by
          rw [hflt]
          exact List.mem_cons_self _ _
        obtain ⟨y, hy, _, _⟩ := find?_eq_some_of_pred
          (p := fun c : Conversation => decide (c.id = c0.id)) hc0mem (by simp)
        exact copyOk_select_found hy
    · -- nothing remains
      constructor
      · exact invCore_of_eq hfC rfl rfl rfl rfl rfl rfl rfl
          (by simp [genIds_append, genIds])
      · intro c hc
        exact absurd hc (by simp)
  · constructor
    · exact hfC
    · intro c hc
      simp only at hc
      rw [List.mem_filter]
      refine ⟨hcopy c hc, ?_⟩
      simp only [decide_eq_true_eq]
      intro hcontra
      rw [hc] at hcur
      exact hcur (by simp [hcontra])


/-! ### The inductive invariant holds in every reachable state -/

theorem inv_step {s : ChatState} (hI : Inv s) (a : Action) : Inv (step a s) := by
  cases a with
  | send content => exact inv_send hI content
  | drain => exact inv_drain hI
  | chunk cid text => exact ⟨invCore_chunk hI.1 cid text, copyOk_chunk hI.2 cid text⟩
  | settle r => exact inv_settle hI r
  | select id => exact ⟨invCore_select hI.1 id, copyOk_select hI.2 id⟩
  | deleteConv id => exact inv_delete hI id
  | rename id t => exact ⟨invCore_rename hI.1 id t, copyOk_rename hI.2 id t⟩
  | stop => exact ⟨invCore_stop hI.1, copyOk_stop hI.2⟩
  | createConv => exact ⟨invCore_createConv hI.1, copyOk_createConv⟩
  | pendingReset => exact ⟨invCore_pendingReset hI.1, copyOk_pendingReset hI.2⟩

theorem inv_run {s : ChatState} (hI : Inv s) (as : List Action) : Inv (run as s) := by
  induction as generalizing s with
  | nil => exact hI
  | cons a tl ih =>
    have : run (a :: tl) s = run tl (step a s) := rfl
    rw [this]
    exact ih (inv_step hI a)

theorem inv_reachable {s : ChatState} (h : Reachable s) : Inv s := by
  obtain ⟨as, hrun⟩ := h
  rw [← hrun]
  exact inv_run inv_init as


/-! ## The claims -/

/-- C10: the main-process store's deleteConversation removes exactly the
conversation with the given id from the persisted list; when the persisted
currentConversationId equalled that id, it is reassigned to the id of the
first remaining conversation, or to null when none remain; otherwise it is
left unchanged. -/
theorem C10_store_delete (st : StoreState) (id : Nat) :
    (∀ c : Conversation, c ∈ (storeDeleteConversation id st).conversations ↔
      (c ∈ st.conversations ∧ c.id ≠ id)) ∧
    (st.currentConversationId = some id →
      ((storeDeleteConversation id st).conversations = [] →
        (storeDeleteConversation id st).currentConversationId = none) ∧
      (∀ c0 : Conversation, ∀ cs : List Conversation,
        (storeDeleteConversation id st).conversations = c0 :: cs →
        (storeDeleteConversation id st).currentConversationId = some c0.id)) ∧
    (st.currentConversationId ≠ some id →
      (storeDeleteConversation id st).currentConversationId =
        st.currentConversationId) := by
  have hconvs : (storeDeleteConversation id st).conversations =
      st.conversations.filter (fun c : Conversation => c.id ≠ id) := by
    unfold storeDeleteConversation
    split <;> rfl
  refine ⟨?_, ?_, ?_⟩
  · intro c
    rw [hconvs]
    simp [List.mem_filter]
  · intro hcur
    have hcurEq : (storeDeleteConversation id st).currentConversationId =
        ((st.conversations.filter (fun c : Conversation => c.id ≠ id)).head?).map
          (fun c : Conversation => c.id) := by
      simp only [storeDeleteConversation, hcur, if_pos]
    constructor
    · intro hnil
      rw [hconvs] at hnil
      rw [hcurEq, hnil]
      rfl
    · intro c0 cs hcons
      rw [hconvs] at hcons
      rw [hcurEq, hcons]
      rfl
  · intro hcur
    simp only [storeDeleteConversation, hcur, if_neg, if_false]

/-- C7 counterexample: the remote (OpenRouter) engine's resetSession, called
while a generation is in flight, clears conversationHistory immediately after
signalling stop; it never awaits the in-flight generation. -/
theorem C7_remote_clears_without_waiting :
    ¬ WaitsBeforeClearing (remoteResetSession true) := by
  intro h
  obtain ⟨j, hj, hev⟩ := h 1 (by decide)
  have hj0 : j = 0 := Nat.lt_one_iff.mp hj
  subst hj0
  exact absurd hev (by decide)

/-- C7 amended: the local (node-llama-cpp) engine's resetSession, issued
while a generation is in flight with its promise recorded, awaits that
generation to settlement before erasing the backend context; the remote
engine lacks this property (see the counterexample). -/
theorem C7_local_waits (initialized : Bool) (evs : List EngineEvent)
    (h : localResetSession initialized true true = some evs) :
    WaitsBeforeClearing evs := by
  cases initialized with
  | false => simp [localResetSession] at h
  | true =>
    simp [localResetSession] at h
    subst h
    intro i hi
    rcases i with _ | _ | _ | n
    · exact absurd hi (by decide)
    · exact absurd hi (by decide)
    · exact ⟨1, by omega, rfl⟩
    · simp at hi

theorem C7_local_waits_witness :
    localResetSession true true true = some
      [EngineEvent.stopCall, EngineEvent.awaitGeneration, EngineEvent.clearContext] ∧
    WaitsBeforeClearing
      [EngineEvent.stopCall, EngineEvent.awaitGeneration, EngineEvent.clearContext] :=
  ⟨by decide, C7_local_waits true _ (by decide)⟩

/-- C2: in every reachable state at most one assistant message across all
conversations has status generating, and when one exists its conversation id
is exactly the one registered with the engine via setGeneratingConversation. -/
theorem C2_unique_generating {s : ChatState} (h : Reachable s) :
    (∀ c ∈ s.conversations, ∀ m ∈ c.messages,
      ∀ c' ∈ s.conversations, ∀ m' ∈ c'.messages,
      m.status = some MessageStatus.generating →
      m'.status = some MessageStatus.generating → c.id = c'.id ∧ m.id = m'.id) ∧
    (∀ c ∈ s.conversations, ∀ m ∈ c.messages,
      m.status = some MessageStatus.generating →
      s.engineGeneratingConvId = some c.id) := by
  obtain ⟨hI, -⟩ := inv_reachable h
  constructor
  · intro c hc m hm c' hc' m' hm' hst hst'
    obtain ⟨inf, hif, hmid, hcid⟩ := hI.genOnly c hc m hm hst
    obtain ⟨inf', hif', hmid', hcid'⟩ := hI.genOnly c' hc' m' hm' hst'
    rw [hif] at hif'
    injection hif' with he
    subst he
    exact ⟨hcid.trans hcid'.symm, hmid.trans hmid'.symm⟩
  · intro c hc m hm hst
    obtain ⟨inf, hif, hmid, hcid⟩ := hI.genOnly c hc m hm hst
    rw [hI.engineEq, hif]
    simp [hcid]

theorem C2_unique_generating_witness :
    (∀ c ∈ genState.conversations, ∀ m ∈ c.messages,
      ∀ c' ∈ genState.conversations, ∀ m' ∈ c'.messages,
      m.status = some MessageStatus.generating →
      m'.status = some MessageStatus.generating → c.id = c'.id ∧ m.id = m'.id) ∧
    (∀ c ∈ genState.conversations, ∀ m ∈ c.messages,
      m.status = some MessageStatus.generating →
      genState.engineGeneratingConvId = some c.id) :=
  C2_unique_generating ⟨[Action.send "hi", Action.drain], rfl⟩


/-! ### Map and projection helpers for the remaining claims -/

theorem find?_map_comm {a : Type} (f : a → a) (p : a → Bool)
    (hp : ∀ x, p (f x) = p x) (l : List a) :
    (l.map f).find? p = (l.find? p).map f := by
  induction l with
  | nil => rfl
  | cons x tl ih =>
    simp only [List.map_cons, List.find?]
    rw [hp x]
    cases hpx : p x
    · simpa using ih
    · simp

theorem mapGet_mapSet (m : List (Nat × String)) (k : Nat) (v : String) (q : Nat) :
    mapGet (mapSet m k v) q = if q = k then some v else mapGet m q := by
  unfold mapGet mapSet
  split <;> rename_i hsome
  · rw [find?_map_comm (fun p => if p.1 = k then (k, v) else p)
      (fun p => decide (p.1 = q)) ?hp m]
    case hp =>
      intro x
      by_cases hx : x.1 = k <;> simp [hx]
    by_cases hq : q = k
    · subst hq
      obtain ⟨p0, hp0⟩ := Option.isSome_iff_exists.mp hsome
      have hp01 : p0.1 = q := by simpa using List.find?_some hp0
      rw [hp0]
      simp [hp01]
    · rw [if_neg hq]
      cases hf : m.find? (fun p => decide (p.1 = q)) with
      | none => simp
      | some p0 =>
        have hp01 : p0.1 = q := by simpa using List.find?_some hf
        have : p0.1 ≠ k := by rw [hp01]; exact hq
        simp [this]
  · rw [List.find?_append]
    by_cases hq : q = k
    · subst hq
      have hnone : m.find? (fun p => decide (p.1 = q)) = none := by
        cases hf : m.find? (fun p => decide (p.1 = q)) with
        | none => rfl
        | some p0 => rw [hf] at hsome; exact absurd rfl hsome
      rw [hnone]
      simp [List.find?]
    · cases hf : m.find? (fun p => decide (p.1 = q)) with
      | none => simp [List.find?, Ne.symm hq, hq]
      | some p0 => simp [hq]

theorem selectImmediate_streaming (s : ChatState) (conversation : Conversation)
    (id : Nat) :
    (selectImmediate conversation id s).streamingByConv = s.streamingByConv := by
  unfold selectImmediate
  simp only
  split
  · split <;> rfl
  · rfl

theorem selectConversation_streaming (id : Nat) (s : ChatState) :
    (selectConversation id s).streamingByConv = s.streamingByConv := by
  unfold selectConversation
  split
  · rfl
  · split
    · split
      · rfl
      · exact selectImmediate_streaming _ _ _
    · exact selectImmediate_streaming _ _ _

theorem selectConversation_conversations (id : Nat) (s : ChatState) :
    (selectConversation id s).conversations = s.conversations := by
  unfold selectConversation
  split
  · rfl
  · split
    · split
      · rfl
      · exact selectImmediate_conversations _ _ _
    · exact selectImmediate_conversations _ _ _

theorem string_append_empty (s : String) : s ++ "" = s := by
  cases s with
  | mk data =>
    show String.mk (data ++ []) = String.mk data
    rw [List.append_nil]

/-- C9: a queued item whose conversation no longer exists at drain time, or
whose located target message is missing or not an assistant message, is
dequeued with no other state change: no generate call is logged, nothing else
is mutated, no error surfaces.  Deleting a conversation removes it from the
controller's list, so the queued items of a deleted conversation take exactly
this path. -/
theorem C9_silent_drop (s : ChatState) (item : QueueItem) (rest : List QueueItem)
    (hq : s.queue = item :: rest) (hproc : s.isProcessing = false)
    (hmiss : getConv s item.conversationId = none ∨
      ∃ conv, getConv s item.conversationId = some conv ∧
        (locateAssistant conv item = none ∨
         ∃ a, locateAssistant conv item = some a ∧ a.role ≠ Role.assistant)) :
    processQueueStart s = { s with queue := rest } ∧
    (∀ cid : Nat, ∀ t : ChatState, getConv (deleteConversation cid t) cid = none) := by
  constructor
  · unfold processQueueStart
    split
    · rename_i heq
      rw [hq] at heq
      exact absurd heq (by simp)
    · rename_i heq
      rw [hproc] at heq
      exact absurd heq (by simp)
    · rename_i item' rest' hqe hpf
      rw [hq] at hqe
      injection hqe with h1 h2
      subst h1
      subst h2
      split
      · rfl
      · rename_i conversation hfind2
        split
        · rfl
        · rename_i assistantMsg hloc2
          split
          · rfl
          · rename_i hrole2
            exfalso
            rcases hmiss with hnone | ⟨conv, hconv, hrest⟩
            · unfold getConv at hnone
              rw [hnone] at hfind2
              exact Option.noConfusion hfind2
            · unfold getConv at hconv
              rw [hconv] at hfind2
              injection hfind2 with hce
              subst hce
              rcases hrest with hlocn | ⟨a, hloc, hrole⟩
              · rw [hlocn] at hloc2
                exact Option.noConfusion hloc2
              · rw [hloc] at hloc2
                injection hloc2 with hae
                subst hae
                exact hrole2 hrole
  · intro cid t
    have hconvs : (deleteConversation cid t).conversations =
        t.conversations.filter (fun c : Conversation => c.id ≠ cid) := by
      unfold deleteConversation
      simp only
      split
      · split
        · exact selectConversation_conversations _ _
        · rfl
      · rfl
    unfold getConv
    rw [hconvs, List.find?_eq_none]
    intro c hc
    have h2 := (List.mem_filter.mp hc).2
    simp only [decide_eq_true_eq] at h2 ⊢
    exact h2

theorem C9_silent_drop_witness :
    processQueueStart orphanState = { orphanState with queue := [] } ∧
    (∀ cid : Nat, ∀ t : ChatState, getConv (deleteConversation cid t) cid = none) :=
  C9_silent_drop orphanState { id := 2, content := "hi", conversationId := 0 } []
    (by decide) (by decide) (Or.inl (by decide))

/-- C5: while a generation is in flight, any interleaving of chunk deliveries
(tagged with their conversation) and conversation switches, with no
settlement in between, leaves every conversation's accumulated streaming
content equal to its prior content followed by the concatenation, in delivery
order, of exactly the chunks delivered for it: none lost, duplicated,
reordered, or credited to another conversation. -/
theorem onChunk_streaming_some (c : Nat) (t : String) (s : ChatState) :
    (onChunk (some c) t s).streamingByConv =
      mapSet s.streamingByConv c ((mapGet s.streamingByConv c).getD "" ++ t) := rfl

theorem C5_chunk_accumulation (s : ChatState) (cid : Nat) (as : List Action)
    (hcs : ∀ a ∈ as, (∃ c t, a = Action.chunk (some c) t) ∨ ∃ i, a = Action.select i) :
    (mapGet (run as s).streamingByConv cid).getD "" =
      (mapGet s.streamingByConv cid).getD "" ++ chunkTextsFor cid as := by
  induction as generalizing s with
  | nil =>
    show (mapGet s.streamingByConv cid).getD "" =
      (mapGet s.streamingByConv cid).getD "" ++ ""
    rw [string_append_empty]
  | cons a tl ih =>
    have ha := hcs a (List.mem_cons_self _ _)
    have htl := fun x hx => hcs x (List.mem_cons_of_mem a hx)
    have hrun : run (a :: tl) s = run tl (step a s) := rfl
    rw [hrun, ih (step a s) htl]
    rcases ha with ⟨c, t, rfl⟩ | ⟨i, rfl⟩
    · have hstream : (step (Action.chunk (some c) t) s).streamingByConv =
          mapSet s.streamingByConv c ((mapGet s.streamingByConv c).getD "" ++ t) :=
        onChunk_streaming_some c t s
      rw [hstream, mapGet_mapSet]
      by_cases hc : cid = c
      · subst hc
        rw [if_pos rfl]
        show ((mapGet s.streamingByConv cid).getD "" ++ t) ++ chunkTextsFor cid tl =
          (mapGet s.streamingByConv cid).getD "" ++
            chunkTextsFor cid (Action.chunk (some cid) t :: tl)
        have hct : chunkTextsFor cid (Action.chunk (some cid) t :: tl) =
            t ++ chunkTextsFor cid tl := by
          simp [chunkTextsFor]
        rw [hct, String.append_assoc]
      · rw [if_neg hc]
        have hct : chunkTextsFor cid (Action.chunk (some c) t :: tl) =
            chunkTextsFor cid tl := by
          simp only [chunkTextsFor]
          rw [if_neg (fun hcc => hc hcc.symm)]
        rw [hct]
    · have hstream : (step (Action.select i) s).streamingByConv =
          s.streamingByConv := selectConversation_streaming i s
      rw [hstream]
      have hct : chunkTextsFor cid (Action.select i :: tl) = chunkTextsFor cid tl := by
        simp [chunkTextsFor]
      rw [hct]

theorem C5_chunk_accumulation_witness :
    (mapGet (run [Action.chunk (some 0) "a", Action.select 1,
        Action.chunk (some 0) "b", Action.chunk (some 5) "x"] genState).streamingByConv
      0).getD "" =
    (mapGet genState.streamingByConv 0).getD "" ++
      chunkTextsFor 0 [Action.chunk (some 0) "a", Action.select 1,
        Action.chunk (some 0) "b", Action.chunk (some 5) "x"] :=
  C5_chunk_accumulation genState 0
    [Action.chunk (some 0) "a", Action.select 1,
      Action.chunk (some 0) "b", Action.chunk (some 5) "x"]
    (by
      intro a ha
      fin_cases ha
      · exact Or.inl ⟨0, "a", rfl⟩
      · exact Or.inr ⟨1, rfl⟩
      · exact Or.inl ⟨0, "b", rfl⟩
      · exact Or.inl ⟨5, "x", rfl⟩)


/-! ### getMsg through a status update -/

theorem getMsg_convs_update (c0 m0 : Nat) (st : MessageStatus) (ct : Option String)
    (l : List Conversation) (cid mid : Nat) :
    ((l.map (updateConvStatus c0 m0 st ct)).find?
        (fun c : Conversation => c.id = cid)).bind
      (fun c : Conversation => c.messages.find? (fun mm : Message => mm.id = mid)) =
    ((l.find? (fun c : Conversation => c.id = cid)).bind
      (fun c : Conversation => c.messages.find? (fun mm : Message => mm.id = mid))).map
      (fun mm : Message => if cid = c0 then updMsg m0 st ct mm else mm) := by
  rw [find?_map_comm (updateConvStatus c0 m0 st ct)
    (fun c : Conversation => decide (c.id = cid))
    (fun c => by simp [updateConvStatus_id]) l]
  cases hf : l.find? (fun c : Conversation => decide (c.id = cid)) with
  | none => rfl
  | some conv =>
    have hcid : conv.id = cid := by simpa using List.find?_some hf
    show (updateConvStatus c0 m0 st ct conv).messages.find?
        (fun mm : Message => mm.id = mid) =
      (conv.messages.find? (fun mm : Message => mm.id = mid)).map
        (fun mm : Message => if cid = c0 then updMsg m0 st ct mm else mm)
    by_cases hc : cid = c0
    · rw [updateConvStatus_messages_of_eq (hcid.trans hc)]
      rw [find?_map_comm (updMsg m0 st ct) (fun mm : Message => decide (mm.id = mid))
        (fun mm => by simp [updMsg_id]) conv.messages]
      cases conv.messages.find? (fun mm : Message => decide (mm.id = mid)) <;> simp [hc]
    · rw [updateConvStatus_of_ne (fun hh => hc (hcid.symm.trans hh))]
      cases conv.messages.find? (fun mm : Message => decide (mm.id = mid)) <;> simp [hc]

/-- C4: when the in-flight generation settles: resolving with success or with
the aborted sentinel leaves the target assistant message complete, carrying
the accumulated streamed text (possibly partial on abort); resolving with
neither leaves it error with the accumulated text; an exception leaves it
error with the placeholder text; in every case the head item is dequeued and
processing is released, so the queue continues draining. -/
theorem C4_settlement {s : ChatState} (h : Reachable s) {inf : Inflight}
    (hif : s.inflight = some inf) {m : Message}
    (hm : getMsg s inf.item.conversationId inf.msgId = some m) (r : GenOutcome) :
    m.role = Role.assistant ∧ m.status = some MessageStatus.generating ∧
    (∀ res : GenResp, r = GenOutcome.ok res →
      getMsg (settleGeneration r s) inf.item.conversationId inf.msgId =
        some { m with
          content := (mapGet s.streamingByConv inf.item.conversationId).getD "",
          status := some (if res.success ∨ res.aborted then MessageStatus.complete
            else MessageStatus.error) }) ∧
    (r = GenOutcome.threw →
      getMsg (settleGeneration r s) inf.item.conversationId inf.msgId =
        some { m with
          content := "Error generating response",
          status := some MessageStatus.error }) ∧
    (settleGeneration r s).queue = s.queue.drop 1 ∧
    (settleGeneration r s).isProcessing = false := by
  obtain ⟨hI, -⟩ := inv_reachable h
  unfold getMsg getConv at hm
  have hparts : ∃ conv, s.conversations.find?
      (fun c : Conversation => c.id = inf.item.conversationId) = some conv ∧
      conv.messages.find? (fun mm : Message => mm.id = inf.msgId) = some m := by
    cases hfc : s.conversations.find?
        (fun c : Conversation => c.id = inf.item.conversationId) with
    | none => rw [hfc] at hm; exact absurd hm (by simp)
    | some conv => rw [hfc] at hm; exact ⟨conv, rfl, hm⟩
  obtain ⟨conv, hfc, hm2⟩ := hparts
  have hmid : m.id = inf.msgId := by simpa using List.find?_some hm2
  have hmmem : m ∈ conv.messages := List.mem_of_find?_eq_some hm2
  have hcmem : conv ∈ s.conversations := List.mem_of_find?_eq_some hfc
  obtain ⟨-, -, h3⟩ := hI.inflightMsg inf hif
  obtain ⟨-, hrole, hst⟩ := h3 conv hcmem m hmmem hmid
  have hmbind : ((s.conversations.find?
      (fun c : Conversation => c.id = inf.item.conversationId)).bind
      (fun c : Conversation => c.messages.find?
        (fun mm : Message => mm.id = inf.msgId))) = some m := by
    rw [hfc]
    exact hm2
  refine ⟨hrole, hst, ?_, ?_, ?_, ?_⟩
  · rintro res rfl
    have hok : (settleGeneration (GenOutcome.ok res) s).conversations =
        s.conversations.map (updateConvStatus inf.item.conversationId inf.msgId
          (if res.success ∨ res.aborted then MessageStatus.complete
            else MessageStatus.error)
          (some ((mapGet s.streamingByConv inf.item.conversationId).getD ""))) := by
      unfold settleGeneration
      rw [hif]
      rfl
    unfold getMsg getConv
    rw [hok, getMsg_convs_update, hmbind]
    simp [updMsg, hmid]
  · rintro rfl
    have hthrew : (settleGeneration GenOutcome.threw s).conversations =
        s.conversations.map (updateConvStatus inf.item.conversationId inf.msgId
          MessageStatus.error (some "Error generating response")) := by
      unfold settleGeneration
      rw [hif]
      rfl
    unfold getMsg getConv
    rw [hthrew, getMsg_convs_update, hmbind]
    simp [updMsg, hmid]
  · unfold settleGeneration
    rw [hif]
    cases r <;> rfl
  · unfold settleGeneration
    rw [hif]

theorem C4_settlement_witness :
    ({ id := 2, role := Role.assistant, content := "",
        status := some MessageStatus.generating } : Message).role = Role.assistant ∧
    ({ id := 2, role := Role.assistant, content := "",
        status := some MessageStatus.generating } : Message).status =
      some MessageStatus.generating ∧
    (∀ res : GenResp,
      GenOutcome.ok { success := true, aborted := false } = GenOutcome.ok res →
      getMsg (settleGeneration
          (GenOutcome.ok { success := true, aborted := false }) genState) 0 2 =
        some {
          id := 2,
          role := Role.assistant,
          content := (mapGet genState.streamingByConv 0).getD "",
          status := some (if res.success ∨ res.aborted then MessageStatus.complete
            else MessageStatus.error) }) ∧
    (GenOutcome.ok { success := true, aborted := false } = GenOutcome.threw →
      getMsg (settleGeneration
          (GenOutcome.ok { success := true, aborted := false }) genState) 0 2 =
        some {
          id := 2,
          role := Role.assistant,
          content := "Error generating response",
          status := some MessageStatus.error }) ∧
    (settleGeneration (GenOutcome.ok { success := true, aborted := false })
        genState).queue = genState.queue.drop 1 ∧
    (settleGeneration (GenOutcome.ok { success := true, aborted := false })
        genState).isProcessing = false :=
  @C4_settlement genState ⟨[Action.send "hi", Action.drain], rfl⟩
    { item := { id := 2, content := "hi", conversationId := 0 }, msgId := 2 }
    (by decide)
    { id := 2, role := Role.assistant, content := "", status := some MessageStatus.generating }
    (by decide)
    (GenOutcome.ok { success := true, aborted := false })


/-- Helper for C8: a send with non-empty trimmed content appends exactly one
queue item. -/
theorem sendMessage_queue_length {content : String} (s : ChatState)
    (h : (jsTrim content).isEmpty = false) :
    (sendMessage content s).queue.length = s.queue.length + 1 := by
  unfold sendMessage
  rw [if_neg (by simp [h])]
  cases hcc : s.currentConversation with
  | none => simp [hcc]
  | some c => simp [hcc]

/-- C8: sendMessage with empty-trimmed content is a complete no-op, so over
any sequence of sends the queue grows by exactly the number of calls whose
trimmed content is non-empty; moreover queue items always sit in submission
order (strictly increasing ids) and the generate calls the controller has
issued carry strictly increasing item ids: generation requests go out in
submission order, head first. -/
theorem C8_order (s : ChatState) :
    (∀ content : String, (jsTrim content).isEmpty → sendMessage content s = s) ∧
    (∀ contents : List String,
      (run (contents.map Action.send) s).queue.length =
        s.queue.length +
          (contents.filter (fun c : String => !(jsTrim c).isEmpty)).length) ∧
    (Reachable s →
      s.queue.Pairwise (fun a b => a.id < b.id) ∧
      (genIds s.log).Pairwise (fun a b => a < b)) := by
  refine ⟨?_, ?_, ?_⟩
  · intro content hc
    unfold sendMessage
    rw [if_pos hc]
  · intro contents
    induction contents generalizing s with
    | nil => simp [run]
    | cons c cs ih =>
      have hrun : run ((c :: cs).map Action.send) s =
          run (cs.map Action.send) (sendMessage c s) := rfl
      rw [hrun, ih (sendMessage c s)]
      cases he : (jsTrim c).isEmpty with
      | true =>
        have hnop : sendMessage c s = s := by
          unfold sendMessage
          rw [if_pos he]
        rw [hnop]
        simp [List.filter, he]
      | false =>
        rw [sendMessage_queue_length s he]
        simp [List.filter, he]
        omega
  · intro h
    obtain ⟨hI, -⟩ := inv_reachable h
    exact ⟨hI.qSorted, hI.genSorted⟩

/-! ### The deferred-selection scenario (C6) -/

/-- selectConversation takes the defer branch when another conversation is
displayed and the processor is busy. -/
theorem select_defer {s : ChatState} {id p : Nat} {conv : Conversation}
    (hfind : s.conversations.find? (fun c : Conversation => c.id = id) = some conv)
    (hcur : s.currentConversation.map (fun c : Conversation => c.id) = some p)
    (hne : p ≠ id) (hproc : s.isProcessing = true) :
    selectConversation id s =
      { s with
        backgroundGeneratingConvId := some p,
        pendingSessionReset := some id,
        currentConversation := some conv,
        log := s.log ++ [ECall.setCurrentId (some id)] } := by
  unfold selectConversation
  rw [hfind]
  split
  · rename_i heq
    exact absurd heq (by simp)
  · rename_i conv' heq
    injection heq with heq
    subst heq
    split
    · rename_i prev hprev
      rw [hcur] at hprev
      injection hprev with hprev
      subst hprev
      rw [if_pos ⟨hne, hproc⟩]
    · rename_i hprev
      rw [hcur] at hprev
      exact absurd hprev (by simp)

theorem settle_pendingReset (r : GenOutcome) (s : ChatState) :
    (settleGeneration r s).pendingSessionReset = s.pendingSessionReset := by
  unfold settleGeneration
  split
  · rfl
  · split <;> rfl

theorem settle_isGenerating {r : GenOutcome} {s : ChatState} {inf : Inflight}
    (hif : s.inflight = some inf) :
    (settleGeneration r s).isGenerating = false := by
  unfold settleGeneration
  rw [hif]

theorem settle_background {r : GenOutcome} {s : ChatState} {inf : Inflight}
    (hif : s.inflight = some inf) :
    (settleGeneration r s).backgroundGeneratingConvId = none := by
  unfold settleGeneration
  rw [hif]

theorem pendingReset_noop {v : ChatState} (hpend : v.pendingSessionReset = none) :
    performPendingReset v = v := by
  unfold performPendingReset
  split
  · rfl
  · rename_i pid heq
    rw [hpend] at heq
    exact absurd heq (by simp)

/-- When nothing is generating and no background generation is recorded, a
pending session reset fires once: the marker clears and the reset-and-replay
calls for the pending conversation are issued. -/
theorem pendingReset_fires {u : ChatState} {id : Nat}
    (hpend : u.pendingSessionReset = some id) (hgen : u.isGenerating = false)
    (hbg : u.backgroundGeneratingConvId = none) :
    (performPendingReset u).pendingSessionReset = none ∧
    (performPendingReset u).log =
      u.log ++ replayCalls (u.conversations.find?
        (fun c : Conversation => c.id = id)) := by
  unfold performPendingReset
  split
  · rename_i heq
    rw [hpend] at heq
    exact absurd heq (by simp)
  · rename_i pid heq
    rw [hpend] at heq
    injection heq with heq
    subst heq
    rw [if_neg (by simp [hgen, hbg])]
    constructor
    · rfl
    · simp only []
      split
      · rename_i conv2 hf2
        have hf3 : u.conversations.find?
            (fun c : Conversation => c.id = id) = some conv2 := hf2
        rw [hf3]
        simp only [replayCalls]
        split <;> rename_i h1
        · split <;> rename_i h2
          · simp [h1, h2]
          · simp [h1, h2]
        · simp [h1]
      · rename_i hf2
        have hf3 : u.conversations.find?
            (fun c : Conversation => c.id = id) = none := hf2
        rw [hf3]
        simp [replayCalls]


/-- C6: selecting another conversation while a generation runs for the
displayed one defers the backend work: at call time only the displayed
conversation changes (one setCurrentId call; no session reset, no history
load), the previous conversation id is recorded as generating in background
and the new id as pending a session reset; the pending-reset effect is
blocked while the generation runs, and exactly when it settles the effect
performs the reset plus filtered history replay once and clears the marker;
running the effect again changes nothing. -/
theorem C6_deferred_switch {s : ChatState} (h : Reachable s) {inf : Inflight}
    (hif : s.inflight = some inf) {p : Nat}
    (hcur : s.currentConversation.map (fun c : Conversation => c.id) = some p)
    {id : Nat} (hne : p ≠ id) {conv : Conversation}
    (hfind : s.conversations.find? (fun c : Conversation => c.id = id) = some conv) :
    (selectConversation id s).log = s.log ++ [ECall.setCurrentId (some id)] ∧
    (selectConversation id s).backgroundGeneratingConvId = some p ∧
    (selectConversation id s).pendingSessionReset = some id ∧
    (selectConversation id s).currentConversation = some conv ∧
    performPendingReset (selectConversation id s) = selectConversation id s ∧
    (∀ r : GenOutcome,
      (settleGeneration r (selectConversation id s)).pendingSessionReset =
        some id ∧
      (performPendingReset
        (settleGeneration r (selectConversation id s))).pendingSessionReset =
        none ∧
      (performPendingReset (settleGeneration r (selectConversation id s))).log =
        (settleGeneration r (selectConversation id s)).log ++
          replayCalls
            ((settleGeneration r (selectConversation id s)).conversations.find?
              (fun c : Conversation => c.id = id)) ∧
      performPendingReset (performPendingReset
          (settleGeneration r (selectConversation id s))) =
        performPendingReset (settleGeneration r (selectConversation id s))) := by
  obtain ⟨hI, -⟩ := inv_reachable h
  have hproc : s.isProcessing = true := by rw [hI.procFlag, hif]; rfl
  have hgen : s.isGenerating = true := by rw [hI.genFlag, hif]; rfl
  have hsel := select_defer hfind hcur hne hproc
  have htinf : (selectConversation id s).inflight = some inf := by
    rw [hsel]
    exact hif
  refine ⟨by rw [hsel], by rw [hsel], by rw [hsel], by rw [hsel], ?_, ?_⟩
  · rw [hsel]
    simp [performPendingReset, hgen]
  · intro r
    have hpend : (settleGeneration r (selectConversation id s)).pendingSessionReset =
        some id := by
      rw [settle_pendingReset, hsel]
    have hfires := pendingReset_fires hpend (settle_isGenerating htinf)
      (settle_background htinf)
    exact ⟨hpend, hfires.1, hfires.2, pendingReset_noop hfires.1⟩

theorem C6_deferred_switch_witness :
    (selectConversation 0 twoConvState).log =
      twoConvState.log ++ [ECall.setCurrentId (some 0)] ∧
    (selectConversation 0 twoConvState).backgroundGeneratingConvId = some 1 ∧
    (selectConversation 0 twoConvState).pendingSessionReset = some 0 ∧
    (selectConversation 0 twoConvState).currentConversation =
      some { id := 0, title := "New Chat", messages := [] } ∧
    performPendingReset (selectConversation 0 twoConvState) =
      selectConversation 0 twoConvState ∧
    (∀ r : GenOutcome,
      (settleGeneration r (selectConversation 0 twoConvState)).pendingSessionReset =
        some 0 ∧
      (performPendingReset
        (settleGeneration r (selectConversation 0 twoConvState))).pendingSessionReset =
        none ∧
      (performPendingReset (settleGeneration r (selectConversation 0 twoConvState))).log =
        (settleGeneration r (selectConversation 0 twoConvState)).log ++
          replayCalls
            ((settleGeneration r (selectConversation 0 twoConvState)).conversations.find?
              (fun c : Conversation => c.id = 0)) ∧
      performPendingReset (performPendingReset
          (settleGeneration r (selectConversation 0 twoConvState))) =
        performPendingReset (settleGeneration r (selectConversation 0 twoConvState))) :=
  @C6_deferred_switch twoConvState
    ⟨[Action.createConv, Action.createConv, Action.send "hi", Action.drain], rfl⟩
    { item := { id := 3, content := "hi", conversationId := 1 }, msgId := 3 }
    (by decide) 1 (by decide) 0 (by decide)
    { id := 0, title := "New Chat", messages := [] } (by decide)


/-! ### Distinct user contents and the exact drain target (C1, C3) -/

theorem nodup_map_mem_unique {a b : Type} {l : List a} {f : a → b}
    (hnd : (l.map f).Nodup) {x y : a} (hx : x ∈ l) (hy : y ∈ l)
    (hf : f x = f y) : x = y := by
  obtain ⟨i, hi⟩ := List.mem_iff_getElem?.mp hx
  obtain ⟨j, hj⟩ := List.mem_iff_getElem?.mp hy
  have hij : i = j := nodup_map_idx_unique hnd hi hj hf
  rw [hij] at hi
  exact Option.some_inj.mp (hi.symm.trans hj)

/-- Under DistinctUserContents, two user messages of one conversation with
the same content sit at the same position. -/
theorem distinct_idx {s : ChatState} (hd : DistinctUserContents s)
    {c : Conversation} (hc : c ∈ s.conversations)
    (hnd : (convMsgIds c).Nodup)
    {i j : Nat} {u u' : Message}
    (hi : c.messages[i]? = some u) (hj : c.messages[j]? = some u')
    (hu : u.role = Role.user) (hu' : u'.role = Role.user)
    (hcontent : u.content = u'.content) : i = j := by
  have hmemi : u ∈ c.messages.filter (fun mm : Message => decide (mm.role = Role.user)) :=
    List.mem_filter.mpr ⟨mem_of_getElem? hi, by simp [hu]⟩
  have hmemj : u' ∈ c.messages.filter (fun mm : Message => decide (mm.role = Role.user)) :=
    List.mem_filter.mpr ⟨mem_of_getElem? hj, by simp [hu']⟩
  have hequ : u = u' := nodup_map_mem_unique (hd c hc) hmemi hmemj hcontent
  subst hequ
  exact nodup_map_idx_unique hnd hi hj rfl

/-- With distinct user contents, the assistant message the processor locates
for the head item is exactly the item's own placeholder. -/
theorem drain_exact {s : ChatState} {item : QueueItem} {rest : List QueueItem}
    {conversation : Conversation} {assistantMsg : Message}
    (h : InvCore s) (hd : DistinctUserContents s) (hq : s.queue = item :: rest)
    (hfind : s.conversations.find?
      (fun c : Conversation => c.id = item.conversationId) = some conversation)
    (hloc : locateAssistant conversation item = some assistantMsg) :
    assistantMsg.id = item.id := by
  have hcid : conversation.id = item.conversationId := by
    simpa using List.find?_some hfind
  have hcmem : conversation ∈ s.conversations := List.mem_of_find?_eq_some hfind
  have hitemmem : item ∈ s.queue := by
    rw [hq]
    exact List.mem_cons_self _ _
  obtain ⟨ih, hp⟩ := h.queuePairs item hitemmem conversation hcmem hcid
  obtain ⟨i0, hfidx, hia, hmin⟩ := drain_locate h hq hfind hloc
  obtain ⟨u0, hu0, hp0⟩ := jsFindIndex_spec hfidx
  obtain ⟨u, aM, hu, ha, h1, h2, h3, h4⟩ := hp
  have hu0p : u0.role = Role.user ∧ u0.content = item.content := by simpa using hp0
  have hieq : i0 = ih := distinct_idx hd hcmem (h.msgNodupIn conversation hcmem)
    hu0 hu hu0p.1 h1 (hu0p.2.trans h2.symm)
  rw [hieq] at hia
  have haeq : assistantMsg = aM := Option.some_inj.mp (hia.symm.trans ha)
  rw [haeq]
  exact h4

/-! ### The two outcomes of one drain step -/

theorem processQueueStart_skip {s : ChatState} {item : QueueItem}
    {rest : List QueueItem}
    (hq : s.queue = item :: rest) (hproc : s.isProcessing = false)
    (hmiss : s.conversations.find?
        (fun c : Conversation => c.id = item.conversationId) = none ∨
      ∃ conv, s.conversations.find?
          (fun c : Conversation => c.id = item.conversationId) = some conv ∧
        (locateAssistant conv item = none ∨
         ∃ a, locateAssistant conv item = some a ∧ a.role ≠ Role.assistant)) :
    processQueueStart s = { s with queue := rest } := by
  unfold processQueueStart
  split
  · rename_i heq
    rw [hq] at heq
    exact absurd heq (by simp)
  · rename_i heq
    rw [hproc] at heq
    exact absurd heq (by simp)
  · rename_i item' rest' hqe hpf
    rw [hq] at hqe
    injection hqe with h1 h2
    subst h1
    subst h2
    split
    · rfl
    · rename_i conversation hfind2
      split
      · rfl
      · rename_i assistantMsg hloc2
        split
        · rfl
        · rename_i hrole2
          exfalso
          rcases hmiss with hnone | ⟨conv, hconv, hrest⟩
          · rw [hnone] at hfind2
            exact Option.noConfusion hfind2
          · rw [hconv] at hfind2
            injection hfind2 with hce
            subst hce
            rcases hrest with hlocn | ⟨a, hloc, hrole⟩
            · rw [hlocn] at hloc2
              exact Option.noConfusion hloc2
            · rw [hloc] at hloc2
              injection hloc2 with hae
              subst hae
              exact hrole2 hrole

theorem processQueueStart_go {s : ChatState} {item : QueueItem}
    {rest : List QueueItem} {conversation : Conversation} {assistantMsg : Message}
    (hq : s.queue = item :: rest) (hproc : s.isProcessing = false)
    (hfind : s.conversations.find?
      (fun c : Conversation => c.id = item.conversationId) = some conversation)
    (hloc : locateAssistant conversation item = some assistantMsg)
    (hrole : assistantMsg.role = Role.assistant) :
    processQueueStart s =
      { updateMessageStatus item.conversationId assistantMsg.id
          MessageStatus.generating none s with
        isProcessing := true,
        engineGeneratingConvId := some item.conversationId,
        isGenerating := true,
        streamingByConv := mapSet (updateMessageStatus item.conversationId
          assistantMsg.id MessageStatus.generating none s).streamingByConv
          item.conversationId "",
        streamingContent := "",
        inflight := some { item := item, msgId := assistantMsg.id },
        log := (updateMessageStatus item.conversationId assistantMsg.id
          MessageStatus.generating none s).log ++
          [ECall.setGenerating (some item.conversationId),
           ECall.generateCall item.id item.content item.conversationId] } := by
  unfold processQueueStart
  split
  · rename_i heq
    rw [hq] at heq
    exact absurd heq (by simp)
  · rename_i heq
    rw [hproc] at heq
    exact absurd heq (by simp)
  · rename_i item' rest' hqe hpf
    rw [hq] at hqe
    injection hqe with h1 h2
    subst h1
    subst h2
    split
    · rename_i hfind2
      rw [hfind] at hfind2
      exact Option.noConfusion hfind2
    · rename_i conversation' hfind2
      rw [hfind] at hfind2
      injection hfind2 with hce
      subst hce
      split
      · rename_i hloc2
        rw [hloc] at hloc2
        exact Option.noConfusion hloc2
      · rename_i assistantMsg' hloc2
        rw [hloc] at hloc2
        injection hloc2 with hae
        subst hae
        rw [if_neg (by simp [hrole])]


/-! ### getMsg transport across the operations (C1, C3) -/

theorem getMsg_congr_convs {s t : ChatState}
    (hconvs : t.conversations = s.conversations) (cid mid : Nat) :
    getMsg t cid mid = getMsg s cid mid := by
  unfold getMsg getConv
  rw [hconvs]

/-- Prepending a fresh conversation does not touch any message already
reachable by id. -/
theorem getMsg_prepend {s : ChatState} (h : InvCore s) {newc : Conversation}
    (hnew : newc.id = s.nextId) {t : ChatState}
    (hconvs : t.conversations = newc :: s.conversations)
    {cid mid : Nat} {m : Message} (hm : getMsg s cid mid = some m) :
    getMsg t cid mid = some m := by
  unfold getMsg getConv at hm ⊢
  cases hfc : s.conversations.find? (fun c : Conversation => c.id = cid) with
  | none =>
    rw [hfc] at hm
    exact absurd hm (by simp)
  | some conv0 =>
    rw [hfc] at hm
    have hc0mem : conv0 ∈ s.conversations := List.mem_of_find?_eq_some hfc
    have hc0id : conv0.id = cid := by simpa using List.find?_some hfc
    have hcidlt : cid < s.nextId := hc0id ▸ h.convIdLt conv0 hc0mem
    rw [hconvs]
    have hskip : (newc :: s.conversations).find?
        (fun c : Conversation => c.id = cid) = s.conversations.find?
        (fun c : Conversation => c.id = cid) := by
      have hne : (decide (newc.id = cid)) = false := by
        simp only [decide_eq_false_iff_not]
        rw [hnew]
        omega
      simp [List.find?, hne]
    rw [hskip, hfc]
    exact hm

/-- A conversation-map that keeps ids and preserves every find?-by-id result
keeps getMsg intact. -/
theorem getMsg_map_keep {s1 : ChatState} (_h : InvCore s1)
    (f : Conversation → Conversation)
    (hid : ∀ c : Conversation, (f c).id = c.id)
    (hkeep : ∀ c ∈ s1.conversations, ∀ mid2 : Nat, ∀ m2 : Message,
      c.messages.find? (fun mm : Message => mm.id = mid2) = some m2 →
      (f c).messages.find? (fun mm : Message => mm.id = mid2) = some m2)
    {t : ChatState} (hconvs : t.conversations = s1.conversations.map f)
    {cid mid : Nat} {m : Message} (hm : getMsg s1 cid mid = some m) :
    getMsg t cid mid = some m := by
  unfold getMsg getConv at hm ⊢
  rw [hconvs, find?_map_comm f (fun c : Conversation => decide (c.id = cid))
    (fun c => by simp [hid c])]
  cases hfc : s1.conversations.find? (fun c : Conversation => c.id = cid) with
  | none =>
    rw [hfc] at hm
    exact absurd hm (by simp)
  | some conv0 =>
    rw [hfc] at hm
    have hm2 : conv0.messages.find? (fun mm : Message => mm.id = mid) = some m := hm
    show (f conv0).messages.find? (fun mm : Message => mm.id = mid) = some m
    exact hkeep conv0 (List.mem_of_find?_eq_some hfc) mid m hm2

theorem getMsg_send {s : ChatState} (hI : Inv s) (content : String)
    {cid mid : Nat} {m : Message} (hm : getMsg s cid mid = some m) :
    getMsg (sendMessage content s) cid mid = some m := by
  obtain ⟨h, hcopy⟩ := hI
  unfold sendMessage
  split
  · exact hm
  · simp only
    split
    · rename_i conv heq
      have hmem : conv ∈ s.conversations := hcopy conv heq
      apply getMsg_map_keep h _ ?hid ?hkeep rfl hm
      case hid =>
        intro c
        split
        · rename_i hx
          show _ = c.id
          rw [hx]
        · rfl
      case hkeep =>
        intro c hcmem mid2 m2 hfound
        split
        · rename_i hx
          have hceq : c = conv := eq_of_mem_of_id_eq h.convNodup hcmem hmem hx
          rw [hceq] at hfound
          show (conv.messages ++ _).find? (fun mm : Message => mm.id = mid2) = some m2
          rw [List.find?_append, hfound]
          rfl
        · exact hfound
    · have h1 := invCore_prepend_fresh h [ECall.setCurrentId (some s.nextId)]
        (by simp [genIds])
      have hm1 : getMsg { s with
          conversations :=
            { id := s.nextId, title := "New Chat", messages := [] } :: s.conversations,
          currentConversation :=
            some { id := s.nextId, title := "New Chat", messages := [] },
          nextId := s.nextId + 1,
          log := s.log ++ [ECall.setCurrentId (some s.nextId)] } cid mid = some m :=
        getMsg_prepend h rfl rfl hm
      apply getMsg_map_keep h1
        (fun c : Conversation => if c.id = s.nextId then
          { id := s.nextId, title := generateTitle content,
            messages := [
              { id := s.nextId + 1, role := Role.user, content := jsTrim content,
                status := some MessageStatus.complete },
              { id := s.nextId + 2, role := Role.assistant, content := "",
                status := some MessageStatus.queued }] }
        else c)
        ?hid2 ?hkeep2 rfl hm1
      case hid2 =>
        intro c
        by_cases hx : c.id = s.nextId <;> simp [hx]
      case hkeep2 =>
        intro c hcmem mid2 m2 hfound
        by_cases hx : c.id = s.nextId
        · have hceq : c = { id := s.nextId, title := "New Chat", messages := [] } :=
            eq_of_mem_of_id_eq h1.convNodup hcmem (List.mem_cons_self _ _) hx
          rw [hceq] at hfound
          exact absurd hfound (by simp)
        · simp only [if_neg hx]
          exact hfound

theorem getMsg_rename {s : ChatState} (hI : Inv s) (id : Nat) (newTitle : String)
    {cid mid : Nat} {m : Message} (hm : getMsg s cid mid = some m) :
    getMsg (renameConversation id newTitle s) cid mid = some m := by
  obtain ⟨h, -⟩ := hI
  unfold renameConversation
  rcases hfind : s.conversations.find? (fun c : Conversation => c.id = id)
    with _ | conversation
  · exact hm
  · simp only
    split
    · exact hm
    · have hcid : conversation.id = id := by simpa using List.find?_some hfind
      have hmem : conversation ∈ s.conversations := List.mem_of_find?_eq_some hfind
      apply getMsg_map_keep h _ ?hid3 ?hkeep3 rfl hm
      case hid3 =>
        intro c
        split
        · rename_i hx
          show conversation.id = c.id
          rw [hx, hcid]
        · rfl
      case hkeep3 =>
        intro c hcmem mid2 m2 hfound
        split
        · rename_i hx
          have hceq : c = conversation :=
            eq_of_mem_of_id_eq h.convNodup hcmem hmem (by rw [hx, hcid])
          rw [hceq] at hfound
          exact hfound
        · exact hfound

theorem deleteConversation_conversations (did : Nat) (s : ChatState) :
    (deleteConversation did s).conversations =
      s.conversations.filter (fun c : Conversation => c.id ≠ did) := by
  unfold deleteConversation
  simp only
  split
  · split
    · exact selectConversation_conversations _ _
    · rfl
  · rfl

theorem getMsg_delete {s : ChatState} (h : InvCore s) (did : Nat)
    {cid mid : Nat} {m : Message} (hm : getMsg s cid mid = some m) :
    getMsg (deleteConversation did s) cid mid = some m ∨
      getMsg (deleteConversation did s) cid mid = none := by
  have hconvs := deleteConversation_conversations did s
  cases hfc2 : (s.conversations.filter
      (fun c : Conversation => c.id ≠ did)).find?
      (fun c : Conversation => c.id = cid) with
  | none =>
    right
    unfold getMsg getConv
    rw [hconvs, hfc2]
    rfl
  | some conv' =>
    left
    unfold getMsg getConv at hm ⊢
    rw [hconvs, hfc2]
    cases hfc : s.conversations.find? (fun c : Conversation => c.id = cid) with
    | none =>
      rw [hfc] at hm
      exact absurd hm (by simp)
    | some conv0 =>
      rw [hfc] at hm
      have hm2 : conv0.messages.find? (fun mm : Message => mm.id = mid) = some m := hm
      have hc0mem : conv0 ∈ s.conversations := List.mem_of_find?_eq_some hfc
      have hc0id : conv0.id = cid := by simpa using List.find?_some hfc
      have hc'mem : conv' ∈ s.conversations :=
        (List.mem_filter.mp (List.mem_of_find?_eq_some hfc2)).1
      have hc'id : conv'.id = cid := by simpa using List.find?_some hfc2
      have hceq : conv' = conv0 :=
        eq_of_mem_of_id_eq h.convNodup hc'mem hc0mem (by rw [hc'id, hc0id])
      show conv'.messages.find? (fun mm : Message => mm.id = mid) = some m
      rw [hceq]
      exact hm2

/-- Role and status of a message survive any conversation-map whose
per-conversation action keeps ids and carries a role/status correspondence. -/
theorem getMsg_map_corr {s : ChatState} (hI : InvCore s)
    (f : Conversation → Conversation)
    (hid : ∀ c : Conversation, (f c).id = c.id)
    (hcorr : ∀ c ∈ s.conversations, ∀ m' ∈ (f c).messages,
      ∃ mo ∈ c.messages, m'.id = mo.id ∧ m'.role = mo.role ∧ m'.status = mo.status)
    {t : ChatState} (hconvs : t.conversations = s.conversations.map f)
    {cid mid : Nat} {m m' : Message}
    (hm : getMsg s cid mid = some m) (hm' : getMsg t cid mid = some m') :
    m'.role = m.role ∧ m'.status = m.status := by
  unfold getMsg getConv at hm hm'
  rw [hconvs, find?_map_comm f (fun c : Conversation => decide (c.id = cid))
    (fun c => by simp [hid c])] at hm'
  cases hfc : s.conversations.find? (fun c : Conversation => c.id = cid) with
  | none =>
    rw [hfc] at hm
    exact absurd hm (by simp)
  | some conv0 =>
    rw [hfc] at hm hm'
    have hm2 : conv0.messages.find? (fun mm : Message => mm.id = mid) = some m := hm
    have hm2' : (f conv0).messages.find? (fun mm : Message => mm.id = mid) = some m' := hm'
    have hcmem : conv0 ∈ s.conversations := List.mem_of_find?_eq_some hfc
    have hm'mem : m' ∈ (f conv0).messages := List.mem_of_find?_eq_some hm2'
    have hm'id : m'.id = mid := by simpa using List.find?_some hm2'
    obtain ⟨mo, hmo, hidm, hrole, hstatus⟩ := hcorr conv0 hcmem m' hm'mem
    have hmmem : m ∈ conv0.messages := List.mem_of_find?_eq_some hm2
    have hmid : m.id = mid := by simpa using List.find?_some hm2
    have hmoeq : mo = m := nodup_map_mem_unique (hI.msgNodupIn conv0 hcmem) hmo hmmem
      (show mo.id = m.id by rw [← hidm, hm'id, hmid])
    rw [hmoeq] at hrole hstatus
    exact ⟨hrole, hstatus⟩


/-- C1 counterexample: when two queued user messages of one conversation
carry identical text, the drained second item generates into the assistant
message located after the FIRST matching user message, not the one whose id
the item carries: the in-flight record pairs item id 4 with message id 2. -/
theorem C1_refuted :
    ∃ s : ChatState, Reachable s ∧ ∃ inf : Inflight,
      (processQueueStart s).inflight = some inf ∧ inf.msgId ≠ inf.item.id := by
  refine ⟨dupState,
    ⟨[Action.send "hi", Action.send "hi", Action.drain,
      Action.settle (GenOutcome.ok { success := true, aborted := false })], rfl⟩,
    { item := { id := 4, content := "hi", conversationId := 0 }, msgId := 2 },
    by decide, by decide⟩

/-- C1 amended: provided no two user messages of one conversation share their
text, every drain that issues a generation targets exactly the assistant
message whose id the drained queue item carries (the placeholder appended by
the sendMessage call that created the item): the in-flight record pairs the
head item with its own id, and that message is the one set to generating. -/
theorem C1_amended {s : ChatState} (h : Reachable s) (hd : DistinctUserContents s)
    (hpre : s.inflight = none) {inf : Inflight}
    (hif : (processQueueStart s).inflight = some inf) :
    inf.msgId = inf.item.id ∧ s.queue.head? = some inf.item ∧
    msgStatus (processQueueStart s) inf.item.conversationId inf.item.id =
      some MessageStatus.generating := by
  obtain ⟨hC, hcopy⟩ := inv_reachable h
  have hproc : s.isProcessing = false := by
    rw [hC.procFlag, hpre]
    rfl
  rcases hq : s.queue with _ | ⟨item, rest⟩
  · exfalso
    have hps : processQueueStart s = s := by
      unfold processQueueStart
      rw [hq]
    rw [hps, hpre] at hif
    exact Option.noConfusion hif
  · cases hfind : s.conversations.find?
        (fun c : Conversation => c.id = item.conversationId) with
    | none =>
      exfalso
      have hps := processQueueStart_skip hq hproc (Or.inl hfind)
      rw [hps] at hif
      have hif2 : s.inflight = some inf := hif
      rw [hpre] at hif2
      exact Option.noConfusion hif2
    | some conversation =>
      cases hloc : locateAssistant conversation item with
      | none =>
        exfalso
        have hps := processQueueStart_skip hq hproc
          (Or.inr ⟨conversation, hfind, Or.inl hloc⟩)
        rw [hps] at hif
        have hif2 : s.inflight = some inf := hif
        rw [hpre] at hif2
        exact Option.noConfusion hif2
      | some assistantMsg =>
        by_cases hrole : assistantMsg.role = Role.assistant
        · have hgo := processQueueStart_go hq hproc hfind hloc hrole
          rw [hgo] at hif
          have hif2 : some ({ item := item, msgId := assistantMsg.id } : Inflight) =
              some inf := hif
          have hinf2 : inf = { item := item, msgId := assistantMsg.id } :=
            (Option.some_inj.mp hif2).symm
          subst hinf2
          have hexact := drain_exact hC hd hq hfind hloc
          refine ⟨hexact, by rfl, ?_⟩
          rw [hgo]
          -- locate the placeholder message itself
          have hcid : conversation.id = item.conversationId := by
            simpa using List.find?_some hfind
          have hcmem : conversation ∈ s.conversations := List.mem_of_find?_eq_some hfind
          obtain ⟨ih, hp⟩ := hC.queuePairs item
            (by rw [hq]; exact List.mem_cons_self _ _) conversation hcmem hcid
          obtain ⟨u, aM, hu, ha, h1, h2, h3, h4⟩ := hp
          have hamem : aM ∈ conversation.messages := mem_of_getElem? ha
          obtain ⟨y, hy, hyp, hymem⟩ := find?_eq_some_of_pred
            (p := fun mm : Message => decide (mm.id = item.id)) hamem (by simp [h4])
          have hyid : y.id = item.id := by simpa using hyp
          have hgm : ((s.conversations.find?
              (fun c : Conversation => c.id = item.conversationId)).bind
              (fun c : Conversation => c.messages.find?
                (fun mm : Message => mm.id = item.id))) = some y := by
            rw [hfind]
            exact hy
          unfold msgStatus getMsg getConv
          show ((((s.conversations.map (updateConvStatus item.conversationId
              assistantMsg.id MessageStatus.generating none)).find?
              (fun c : Conversation => c.id = item.conversationId)).bind
              (fun c : Conversation => c.messages.find?
                (fun mm : Message => mm.id = item.id))).bind
              (fun mm : Message => mm.status)) = some MessageStatus.generating
          rw [getMsg_convs_update, hgm]
          simp only [Option.map_some']
          simp only [if_true]
          show (updMsg assistantMsg.id MessageStatus.generating none y).status =
            some MessageStatus.generating
          unfold updMsg
          rw [if_pos (by rw [hyid]; exact hexact.symm)]
        · exfalso
          have hps := processQueueStart_skip hq hproc
            (Or.inr ⟨conversation, hfind, Or.inr ⟨assistantMsg, hloc, hrole⟩⟩)
          rw [hps] at hif
          have hif2 : s.inflight = some inf := hif
          rw [hpre] at hif2
          exact Option.noConfusion hif2

theorem C1_amended_witness :
    (2 : Nat) = 2 ∧
    oneSendState.queue.head? =
      some { id := 2, content := "hi", conversationId := 0 } ∧
    msgStatus (processQueueStart oneSendState) 0 2 =
      some MessageStatus.generating :=
  @C1_amended oneSendState ⟨[Action.send "hi"], rfl⟩
    (by unfold DistinctUserContents; decide) (by decide)
    { item := { id := 2, content := "hi", conversationId := 0 }, msgId := 2 }
    (by decide)


/-- C3 counterexample: with two identically-worded user messages queued in
one conversation, draining the second item moves the already-completed first
assistant message from complete back to generating: a backward transition. -/
theorem C3_refuted :
    ∃ s : ChatState, Reachable s ∧ ∃ a : Action, ∃ m m' : Message,
      getMsg s 0 2 = some m ∧ getMsg (step a s) 0 2 = some m' ∧
      ¬ StatusForward m.status m'.status := by
  refine ⟨dupState,
    ⟨[Action.send "hi", Action.send "hi", Action.drain,
      Action.settle (GenOutcome.ok { success := true, aborted := false })], rfl⟩,
    Action.drain,
    { id := 2, role := Role.assistant, content := "",
      status := some MessageStatus.complete },
    { id := 2, role := Role.assistant, content := "",
      status := some MessageStatus.generating },
    by decide, by decide, ?_⟩
  simp [StatusForward]

/-- stopGeneration leaves the conversation list untouched. -/
theorem stopGeneration_conversations (s : ChatState) :
    (stopGeneration s).conversations = s.conversations := rfl

/-- settleGeneration with nothing in flight is the identity. -/
theorem settle_noop {r : GenOutcome} {s : ChatState} (hinf : s.inflight = none) :
    settleGeneration r s = s := by
  unfold settleGeneration
  rw [hinf]

/-- Each chunk delivery either leaves the conversations untouched (no target)
or maps them through one content rewrite. -/
theorem onChunk_conversations (cid? : Option Nat) (text : String) (s : ChatState) :
    (onChunk cid? text s).conversations = s.conversations ∨
    ∃ tc, (onChunk cid? text s).conversations =
      s.conversations.map (updateConversationMessages tc
        ((mapGet s.streamingByConv tc).getD "" ++ text)) := by
  rcases cid? with _ | c
  · unfold onChunk
    simp only
    split
    · left
      rfl
    · rename_i targetConvId heq
      right
      exact ⟨targetConvId, rfl⟩
  · right
    exact ⟨c, rfl⟩

/-- C3 amended: provided no two user messages of one conversation share their
text, every controller operation moves every message status only forward
along queued, generating, complete-or-error (or leaves it in place); no step
moves a status backward. -/
theorem C3_forward {s : ChatState} (h : Reachable s) (hd : DistinctUserContents s)
    (a : Action) {cid mid : Nat} {m m' : Message}
    (hm : getMsg s cid mid = some m)
    (hm' : getMsg (step a s) cid mid = some m') :
    StatusForward m.status m'.status := by
  obtain ⟨hC, hcopy⟩ := inv_reachable h
  have hsame : ∀ mm : Message, getMsg (step a s) cid mid = some mm → mm = m' :=
    fun mm hmm => Option.some_inj.mp (hmm.symm.trans hm')
  cases a with
  | send content =>
    have heq := hsame m (getMsg_send ⟨hC, hcopy⟩ content hm)
    exact Or.inl (congrArg Message.status heq)
  | chunk cid? text =>
    have hm'2 : getMsg (onChunk cid? text s) cid mid = some m' := hm'
    rcases onChunk_conversations cid? text s with hsame2 | ⟨tc, hconvs⟩
    · rw [getMsg_congr_convs hsame2] at hm'2
      exact Or.inl (congrArg Message.status (Option.some_inj.mp (hm.symm.trans hm'2)))
    · have hcorr := getMsg_map_corr hC
        (updateConversationMessages tc
          ((mapGet s.streamingByConv tc).getD "" ++ text))
        (updateConversationMessages_id _ _)
        (fun c hc => chunk_msg_corr _ _ c) hconvs hm hm'2
      exact Or.inl hcorr.2.symm
  | drain =>
    rcases hq : s.queue with _ | ⟨item, rest⟩
    · have hps : processQueueStart s = s := by
        unfold processQueueStart
        rw [hq]
      rw [show step Action.drain s = processQueueStart s from rfl, hps] at hm'
      exact Or.inl (congrArg Message.status (Option.some_inj.mp (hm.symm.trans hm')))
    · cases hpc : s.isProcessing with
      | true =>
        have hps : processQueueStart s = s := by
          unfold processQueueStart
          rw [hq, hpc]
        rw [show step Action.drain s = processQueueStart s from rfl, hps] at hm'
        exact Or.inl (congrArg Message.status (Option.some_inj.mp (hm.symm.trans hm')))
      | false =>
        have hinf : s.inflight = none := inflight_none_of_not_processing hC hpc
        cases hfind : s.conversations.find?
            (fun c : Conversation => c.id = item.conversationId) with
        | none =>
          have hps := processQueueStart_skip hq hpc (Or.inl hfind)
          rw [show step Action.drain s = processQueueStart s from rfl, hps] at hm'
          have : getMsg s cid mid = some m' := hm'
          exact Or.inl (congrArg Message.status (Option.some_inj.mp (hm.symm.trans this)))
        | some conversation =>
          cases hloc : locateAssistant conversation item with
          | none =>
            have hps := processQueueStart_skip hq hpc
              (Or.inr ⟨conversation, hfind, Or.inl hloc⟩)
            rw [show step Action.drain s = processQueueStart s from rfl, hps] at hm'
            have : getMsg s cid mid = some m' := hm'
            exact Or.inl (congrArg Message.status (Option.some_inj.mp (hm.symm.trans this)))
          | some assistantMsg =>
            by_cases hrole : assistantMsg.role = Role.assistant
            · have hgo := processQueueStart_go hq hpc hfind hloc hrole
              rw [show step Action.drain s = processQueueStart s from rfl, hgo] at hm'
              -- getMsg equation through the status update
              have hm'3 : ((s.conversations.map (updateConvStatus item.conversationId
                  assistantMsg.id MessageStatus.generating none)).find?
                  (fun c : Conversation => c.id = cid)).bind
                  (fun c : Conversation => c.messages.find?
                    (fun mm : Message => mm.id = mid)) = some m' := hm'
              rw [getMsg_convs_update] at hm'3
              have hmbind : ((s.conversations.find?
                  (fun c : Conversation => c.id = cid)).bind
                  (fun c : Conversation => c.messages.find?
                    (fun mm : Message => mm.id = mid))) = some m := hm
              rw [hmbind] at hm'3
              simp only [Option.map_some'] at hm'3
              have hm'eq : m' = if cid = item.conversationId then
                  updMsg assistantMsg.id MessageStatus.generating none m else m :=
                (Option.some_inj.mp hm'3).symm
              by_cases hcc : cid = item.conversationId
              · rw [if_pos hcc] at hm'eq
                unfold updMsg at hm'eq
                by_cases hmm : m.id = assistantMsg.id
                · rw [if_pos hmm] at hm'eq
                  -- the target was the queued placeholder
                  have hexact := drain_exact hC hd hq hfind hloc
                  have hmitem : m.id = item.id := by rw [hmm, hexact]
                  -- extract membership of m
                  have hparts : ∃ conv0, s.conversations.find?
                      (fun c : Conversation => c.id = cid) = some conv0 ∧
                      conv0.messages.find?
                        (fun mm : Message => mm.id = mid) = some m := by
                    unfold getMsg getConv at hm
                    cases hfc : s.conversations.find?
                        (fun c : Conversation => c.id = cid) with
                    | none => rw [hfc] at hm; exact absurd hm (by simp)
                    | some conv0 => rw [hfc] at hm; exact ⟨conv0, rfl, hm⟩
                  obtain ⟨conv0, hfc, hm2⟩ := hparts
                  have hqueued := hC.queuedSt item
                    (by rw [hq]; exact List.mem_cons_self _ _)
                    (fun inf hif => absurd (hinf ▸ hif) (by simp))
                    conv0 (List.mem_of_find?_eq_some hfc)
                    m (List.mem_of_find?_eq_some hm2) hmitem
                  rw [hm'eq]
                  exact Or.inr (Or.inl ⟨hqueued, Or.inl rfl⟩)
                · rw [if_neg hmm] at hm'eq
                  exact Or.inl (congrArg Message.status hm'eq.symm)
              · rw [if_neg hcc] at hm'eq
                exact Or.inl (congrArg Message.status hm'eq.symm)
            · have hps := processQueueStart_skip hq hpc
                (Or.inr ⟨conversation, hfind, Or.inr ⟨assistantMsg, hloc, hrole⟩⟩)
              rw [show step Action.drain s = processQueueStart s from rfl, hps] at hm'
              have : getMsg s cid mid = some m' := hm'
              exact Or.inl (congrArg Message.status (Option.some_inj.mp (hm.symm.trans this)))
  | settle r =>
    cases hinf : s.inflight with
    | none =>
      rw [show step (Action.settle r) s = settleGeneration r s from rfl,
        settle_noop hinf] at hm'
      exact Or.inl (congrArg Message.status (Option.some_inj.mp (hm.symm.trans hm')))
    | some inf =>
      -- the in-flight message goes generating -> complete or error; others stay
      obtain ⟨-, -, h3⟩ := hC.inflightMsg inf hinf
      have hconc : ∀ fst : MessageStatus, ∀ fct : Option String,
          (fst = MessageStatus.complete ∨ fst = MessageStatus.error) →
          (settleGeneration r s).conversations =
            s.conversations.map (updateConvStatus inf.item.conversationId
              inf.msgId fst fct) →
          StatusForward m.status m'.status := by
        intro fst fct hfst hconvs
        have hm'3 : ((s.conversations.map (updateConvStatus inf.item.conversationId
            inf.msgId fst fct)).find?
            (fun c : Conversation => c.id = cid)).bind
            (fun c : Conversation => c.messages.find?
              (fun mm : Message => mm.id = mid)) = some m' := by
          have : getMsg (settleGeneration r s) cid mid = some m' := hm'
          unfold getMsg getConv at this
          rw [hconvs] at this
          exact this
        rw [getMsg_convs_update] at hm'3
        have hmbind : ((s.conversations.find?
            (fun c : Conversation => c.id = cid)).bind
            (fun c : Conversation => c.messages.find?
              (fun mm : Message => mm.id = mid))) = some m := hm
        rw [hmbind] at hm'3
        simp only [Option.map_some'] at hm'3
        have hm'eq : m' = if cid = inf.item.conversationId then
            updMsg inf.msgId fst fct m else m :=
          (Option.some_inj.mp hm'3).symm
        by_cases hcc : cid = inf.item.conversationId
        · rw [if_pos hcc] at hm'eq
          unfold updMsg at hm'eq
          by_cases hmm : m.id = inf.msgId
          · rw [if_pos hmm] at hm'eq
            have hparts : ∃ conv0, s.conversations.find?
                (fun c : Conversation => c.id = cid) = some conv0 ∧
                conv0.messages.find?
                  (fun mm : Message => mm.id = mid) = some m := by
              unfold getMsg getConv at hm
              cases hfc : s.conversations.find?
                  (fun c : Conversation => c.id = cid) with
              | none => rw [hfc] at hm; exact absurd hm (by simp)
              | some conv0 => rw [hfc] at hm; exact ⟨conv0, rfl, hm⟩
            obtain ⟨conv0, hfc, hm2⟩ := hparts
            obtain ⟨-, -, hgen⟩ := h3 conv0 (List.mem_of_find?_eq_some hfc)
              m (List.mem_of_find?_eq_some hm2) hmm
            rw [hm'eq]
            rcases hfst with hc | he
            · exact Or.inr (Or.inr ⟨hgen, Or.inl (by rw [hc])⟩)
            · exact Or.inr (Or.inr ⟨hgen, Or.inr (by rw [he])⟩)
          · rw [if_neg hmm] at hm'eq
            exact Or.inl (congrArg Message.status hm'eq.symm)
        · rw [if_neg hcc] at hm'eq
          exact Or.inl (congrArg Message.status hm'eq.symm)
      cases r with
      | ok result =>
        refine hconc (if result.success = true ∨ result.aborted = true then
            MessageStatus.complete else MessageStatus.error)
          (some ((mapGet s.streamingByConv inf.item.conversationId).getD ""))
          (by split <;> simp) ?_
        unfold settleGeneration
        rw [hinf]
        rfl
      | threw =>
        refine hconc MessageStatus.error (some "Error generating response")
          (Or.inr rfl) ?_
        unfold settleGeneration
        rw [hinf]
        rfl
  | select id =>
    have hcv : (step (Action.select id) s).conversations = s.conversations :=
      selectConversation_conversations id s
    rw [getMsg_congr_convs hcv] at hm'
    exact Or.inl (congrArg Message.status (Option.some_inj.mp (hm.symm.trans hm')))
  | deleteConv id =>
    rcases getMsg_delete hC id hm with hkeep | hgone
    · have : getMsg (step (Action.deleteConv id) s) cid mid = some m := hkeep
      exact Or.inl (congrArg Message.status (Option.some_inj.mp (this.symm.trans hm')))
    · have : getMsg (step (Action.deleteConv id) s) cid mid = none := hgone
      rw [this] at hm'
      exact absurd hm' (by simp)
  | rename id t =>
    have heq := hsame m (getMsg_rename ⟨hC, hcopy⟩ id t hm)
    exact Or.inl (congrArg Message.status heq)
  | stop =>
    have hcv : (step Action.stop s).conversations = s.conversations :=
      stopGeneration_conversations s
    rw [getMsg_congr_convs hcv] at hm'
    exact Or.inl (congrArg Message.status (Option.some_inj.mp (hm.symm.trans hm')))
  | createConv =>
    have hpre := @getMsg_prepend s hC
      { id := s.nextId, title := "New Chat", messages := [] } rfl
      (createConversation s) rfl cid mid m hm
    have heq := hsame m hpre
    exact Or.inl (congrArg Message.status heq)
  | pendingReset =>
    have hcv : (step Action.pendingReset s).conversations = s.conversations :=
      performPendingReset_conversations s
    rw [getMsg_congr_convs hcv] at hm'
    exact Or.inl (congrArg Message.status (Option.some_inj.mp (hm.symm.trans hm')))

theorem C3_forward_witness :
    StatusForward (some MessageStatus.queued) (some MessageStatus.generating) :=
  @C3_forward oneSendState ⟨[Action.send "hi"], rfl⟩
    (by unfold DistinctUserContents; decide) Action.drain 0 2
    { id := 2, role := Role.assistant, content := "",
      status := some MessageStatus.queued }
    { id := 2, role := Role.assistant, content := "",
      status := some MessageStatus.generating }
    (by decide) (by decide)

end LiquidChat
